import Mathlib

/-!
Verification of the chunker and coverage-ledger core of the
`llm-code-reviewer` repository (`src/chunker.py`, `src/coverage.py`).

Strings are modelled as `List Char` (Python `str` is a sequence of unicode
code points).  Python `int` is modelled as `Int`/`Nat` (Python integers are
unbounded, so no wrap-around is involved).  The floating-point expressions
of the source (`context_length * 0.3`, `round(chunk_size * overlap_ratio)`)
are modelled with exact rational arithmetic: `0.3` is `3/10`, an
`overlap_ratio` parameter is an arbitrary `ℚ`, and Python's `round`
(round-half-to-even) is implemented exactly on the rational
`chunk_size * overlap_ratio`.  For the concrete parameter values used by the
claims the float computations of CPython and the exact computations agree.
-/

def toL (s : String) : List Char := s.data

/-! ### Chunker (`src/chunker.py`) -/

/-- The set of line boundaries recognised by Python's `str.splitlines`. -/
def isLineBreak (c : Char) : Bool :=
  c = '\n' || c = '\r' || c = '\x0b' || c = '\x0c' ||
  c = '\x1c' || c = '\x1d' || c = '\x1e' || c = '\x85' ||
  c = '\u2028' || c = '\u2029'

/-- Worker for `pySplitlines`: `acc` is the current (reversed) line.
A trailing line terminator does not open a final empty line, and the pair
`\r\n` counts as a single boundary, exactly as in Python. -/
def splitlinesGo : List Char → List Char → List (List Char)
  | [], acc => [acc.reverse]
  | '\r' :: '\n' :: rest, acc =>
    match rest with
    | [] => [acc.reverse]
    | _ => acc.reverse :: splitlinesGo rest []
  | c :: rest, acc =>
    if isLineBreak c then
      match rest with
      | [] => [acc.reverse]
      | _ => acc.reverse :: splitlinesGo rest []
    else splitlinesGo rest (c :: acc)

/-- Python's `content.splitlines()` (empty input gives no lines). -/
def pySplitlines : List Char → List (List Char)
  | [] => []
  | c :: rest => splitlinesGo (c :: rest) []

/-- Python's `"\n".join(lines)`. -/
def joinLines : List (List Char) → List Char
  | [] => []
  | [l] => l
  | l :: l2 :: rest => l ++ '\n' :: joinLines (l2 :: rest)

/-- The `Chunk` dataclass of `src/chunker.py`. -/
structure Chunk where
  content : List Char
  start_line : Nat
  end_line : Nat
  index : Nat
  chunk_id : List Char
  sha256 : List Char
deriving DecidableEq, Repr

/-- Model of `_calculate_chunk_size` of `src/chunker.py`:
`token_budget = max(1, int(context_length * 0.3))` (here: exact `3*c/10`,
truncation and floor agree on non-negative values),
`estimated_lines = max(50, token_budget // 5)`,
result `max(1, min(max_lines, estimated_lines))`. -/
def calculate_chunk_size (context_length max_lines : Nat) : Nat :=
  let token_budget := max 1 (3 * context_length / 10)
  let estimated_lines := max 50 (token_budget / 5)
  max 1 (min max_lines estimated_lines)

/-- Python's built-in `round` (round-half-to-even) applied to the exact
rational `n / d`, for `d > 0`.  `f` is the floor; `r2` is twice the
numerator of the fractional part over the same denominator `d`. -/
def pyRoundRat (n d : Int) : Int :=
  let f := Int.fdiv n d
  let r2 := 2 * (n - f * d)
  if r2 < d then f
  else if d < r2 then f + 1
  else if f % 2 = 0 then f else f + 1

/-- The computation `overlap = max(0, int(round(chunk_size * overlap_ratio)))` of
`generate_chunks`, with the product `chunk_size * overlap_ratio` taken as
the exact rational `(chunk_size * ratio.num) / ratio.den`. -/
def computeOverlap (chunk_size : Nat) ( overlap_ratio : ℚ) : Nat :=
  (max 0 (pyRoundRat ((chunk_size : Int) * overlap_ratio.num) ( overlap_ratio.den : Int))).toNat

/-- The decimal digit characters. -/
def digitChar : Nat → Char
  | 0 => '0' | 1 => '1' | 2 => '2' | 3 => '3' | 4 => '4'
  | 5 => '5' | 6 => '6' | 7 => '7' | 8 => '8' | _ => '9'

/-- Decimal digits of `n`, most significant first; `fuel`-driven
(`fuel > n` suffices, see `natToDec`). -/
def natToDecAux : Nat → Nat → List Char
  | 0, _ => []
  | fuel + 1, n => if n < 10 then [digitChar n] else natToDecAux fuel (n / 10) ++ [digitChar (n % 10)]

/-- Python's `str(n)` for a natural number. -/
def natToDec (n : Nat) : List Char := natToDecAux (n + 1) n

/-- Python's `str(n)` for an integer. -/
def intToDec : Int → List Char
  | .ofNat n => natToDec n
  | .negSucc n => '-' :: natToDec (n + 1)

/-- One `Chunk` as built in the loop body of `generate_chunks`:
content `lines[start_idx:end_idx]` joined with newlines, 1-based line range,
id `f"{relative_path}#{file_hash}@{chunk_index}"`. -/
def mkChunk (lines : List (List Char)) (start_idx end_idx chunk_index : Nat)
    (relative_path file_hash : List Char) : Chunk :=
  { content := joinLines ((lines.drop start_idx).take (end_idx - start_idx))
    start_line := start_idx + 1
    end_line := end_idx
    index := chunk_index
    chunk_id := relative_path ++ '#' :: file_hash ++ '@' :: natToDec chunk_index
    sha256 := file_hash }

/-- The `while start_idx < total_lines` loop of `generate_chunks`.
The Python loop has no fuel; the fuel argument makes the possible
non-termination for `overlap ≥ chunk_size` explicit (`[]` on exhaustion).
`generate_chunks` runs it with fuel `total_lines`, which is shown to be
sufficient whenever `overlap < chunk_size`. -/
def chunkLoop (lines : List (List Char)) (chunk_size overlap : Nat)
    (relative_path file_hash : List Char) : Nat → Nat → Nat → List Chunk
  | 0, _, _ => []
  | fuel + 1, start_idx, chunk_index =>
    if start_idx < lines.length then
      let end_idx := min lines.length (start_idx + chunk_size)
      let c := mkChunk lines start_idx end_idx chunk_index relative_path file_hash
      if end_idx = lines.length then [c]
      else
        c :: chunkLoop lines chunk_size overlap relative_path file_hash fuel
          (if 0 < overlap then end_idx - overlap else end_idx) (chunk_index + 1)
    else []

/-- Model of `generate_chunks` of `src/chunker.py`.  The SHA-256 of the whole file is
opaque to every claim, so the hash function is a parameter. -/
def generate_chunks (hash : List Char → List Char) (content relative_path : List Char)
    (context_length max_lines : Nat) ( overlap_ratio : ℚ) : List Chunk :=
  let lines := pySplitlines content
  if lines.length = 0 then
    [{ content := []
       start_line := 1
       end_line := 1
       index := 0
       chunk_id := relative_path ++ '#' :: hash content ++ '@' :: natToDec 0
       sha256 := hash content }]
  else
    let chunk_size := calculate_chunk_size context_length max_lines
    let overlap := computeOverlap chunk_size overlap_ratio
    chunkLoop lines chunk_size overlap relative_path (hash content) lines.length 0 0

/-- The `(start_line, end_line)` ranges the chunk loop produces; they depend
only on the number of lines (used for claim C4). -/
def rangesLoop (total chunk_size overlap : Nat) : Nat → Nat → List (Nat × Nat)
  | 0, _ => []
  | fuel + 1, start_idx =>
    if start_idx < total then
      let end_idx := min total (start_idx + chunk_size)
      if end_idx = total then [(start_idx + 1, end_idx)]
      else
        (start_idx + 1, end_idx) :: rangesLoop total chunk_size overlap fuel
          (if 0 < overlap then end_idx - overlap else end_idx)
    else []

/-- The value `overlap_ratio = 0.05` of the claims, as the exact rational `1/20`
(written as a raw fraction so that it evaluates by kernel reduction). -/
def ratioP05 : ℚ := ⟨1, 20, by norm_num, by norm_num⟩

/-! ### JSON values (`json.loads` / `json.dumps` as used by `src/coverage.py`)

JSON numbers are modelled as integers only: every number the ledger writer
emits is an integer, and the model's parser rejects float syntax (a line
holding a float still parses in CPython; nothing in the claims depends on
such lines).  Object values keep their fields as an ordered association
list; duplicate keys are resolved on access (`objGet` takes the last
binding, as `json.loads` does when building a `dict`). -/

inductive JVal where
  | null
  | bool (b : Bool)
  | num (n : Int)
  | str (s : List Char)
  | arr (elems : List JVal)
  | obj (fields : List (List Char × JVal))
deriving Repr

/-- Hex digit character for `n < 16` (lower case, as `json.dumps` emits). -/
def hexDigitChar (n : Nat) : Char :=
  if n < 10 then digitChar n
  else if n = 10 then 'a' else if n = 11 then 'b' else if n = 12 then 'c'
  else if n = 13 then 'd' else if n = 14 then 'e' else 'f'

/-- Escaping of one character inside a JSON string, as `json.dumps` with
`ensure_ascii=False` does it: quote, backslash and the named control
escapes, `\u00XX` for the remaining control characters, everything else
verbatim. -/
def escapeChar (c : Char) : List Char :=
  if c = '"' then ['\\', '"']
  else if c = '\\' then ['\\', '\\']
  else if c = '\n' then ['\\', 'n']
  else if c = '\r' then ['\\', 'r']
  else if c = '\t' then ['\\', 't']
  else if c = '\x08' then ['\\', 'b']
  else if c = '\x0c' then ['\\', 'f']
  else if c.toNat < 32 then
    ['\\', 'u', '0', '0', hexDigitChar (c.toNat / 16), hexDigitChar (c.toNat % 16)]
  else [c]

/-- Escaping of a whole JSON string body. -/
def escapeStr : List Char → List Char
  | [] => []
  | c :: s => escapeChar c ++ escapeStr s

mutual
/-- Model of `json.dumps(v, ensure_ascii=False)` with the default separators
`", "` and `": "` (exactly what `append_record` writes). -/
def printJVal : JVal → List Char
  | .null => toL "null"
  | .bool true => toL "true"
  | .bool false => toL "false"
  | .num n => intToDec n
  | .str s => '"' :: escapeStr s ++ ['"']
  | .arr xs => '[' :: printElems xs ++ [']']
  | .obj fs => '\x7b' :: printFields fs ++ ['\x7d']
/-- Elements of a JSON array, joined by `", "`. -/
def printElems : List JVal → List Char
  | [] => []
  | [x] => printJVal x
  | x :: y :: xs => printJVal x ++ ',' :: ' ' :: printElems (y :: xs)
/-- Fields of a JSON object, `"key": value`, joined by `", "`. -/
def printFields : List (List Char × JVal) → List Char
  | [] => []
  | [(k, v)] => '"' :: escapeStr k ++ '"' :: ':' :: ' ' :: printJVal v
  | (k, v) :: kv :: fs =>
    ('"' :: escapeStr k ++ '"' :: ':' :: ' ' :: printJVal v) ++ ',' :: ' ' :: printFields (kv :: fs)
end

/-- The whitespace characters `json.loads` skips between tokens. -/
def isJsonWs (c : Char) : Bool :=
  c = ' ' || c = '\t' || c = '\n' || c = '\r'

/-- Drop leading JSON whitespace. -/
def skipWs : List Char → List Char
  | [] => []
  | c :: rest => if isJsonWs c then skipWs rest else c :: rest

/-- Value of a hex digit character. -/
def hexVal (c : Char) : Option Nat :=
  if '0' ≤ c ∧ c ≤ '9' then some (c.toNat - 48)
  else if 'a' ≤ c ∧ c ≤ 'f' then some (c.toNat - 87)
  else if 'A' ≤ c ∧ c ≤ 'F' then some (c.toNat - 55)
  else none

/-- The single-character string escapes of JSON. -/
def unescapeChar (c : Char) : Option Char :=
  if c = '"' then some '"'
  else if c = '\\' then some '\\'
  else if c = '/' then some '/'
  else if c = 'b' then some '\x08'
  else if c = 'f' then some '\x0c'
  else if c = 'n' then some '\n'
  else if c = 'r' then some '\r'
  else if c = 't' then some '\t'
  else none

/-- Body of a JSON string after the opening quote: returns the decoded
string and the input after the closing quote.  Unescaped control
characters are rejected (`json.loads` default `strict=True`). -/
def parseStringBody : List Char → Option (List Char × List Char)
  | [] => none
  | '"' :: rest => some ([], rest)
  | '\\' :: 'u' :: a :: b :: c :: d :: rest =>
    match hexVal a, hexVal b, hexVal c, hexVal d with
    | some ha, some hb, some hc, some hd =>
      (parseStringBody rest).map
        (fun p => (Char.ofNat (((ha * 16 + hb) * 16 + hc) * 16 + hd) :: p.1, p.2))
    | _, _, _, _ => none
  | '\\' :: e :: rest =>
    match unescapeChar e with
    | some ch => (parseStringBody rest).map (fun p => (ch :: p.1, p.2))
    | none => none
  | c :: rest =>
    if c.toNat < 32 then none
    else (parseStringBody rest).map (fun p => (c :: p.1, p.2))

/-- Numeric value of a list of decimal digit characters. -/
def digitsToNat (ds : List Char) : Nat :=
  ds.foldl (fun n c => 10 * n + (c.toNat - 48)) 0

/-- A JSON unsigned integer: maximal run of digits, no leading zero,
not followed by `.`/`e`/`E` (floats are outside the model). -/
def parseNatNum (cs : List Char) : Option (Nat × List Char) :=
  let ds := cs.takeWhile Char.isDigit
  let rest := cs.dropWhile Char.isDigit
  if ds = [] then none
  else if 2 ≤ ds.length ∧ ds.head? = some '0' then none
  else if rest.head? = some '.' ∨ rest.head? = some 'e' ∨ rest.head? = some 'E' then none
  else some (digitsToNat ds, rest)

/-- A JSON integer (optional minus sign). -/
def parseNum : List Char → Option (JVal × List Char)
  | [] => none
  | c :: rest =>
    if c = '-' then (parseNatNum rest).map (fun p => (.num (-(p.1 : Int)), p.2))
    else (parseNatNum (c :: rest)).map (fun p => (.num (p.1 : Int), p.2))

/-- Check that `p` is a literal prefix of the input, returning the rest. -/
def dropPre : List Char → List Char → Option (List Char)
  | [], rest => some rest
  | _ :: _, [] => none
  | p :: ps, c :: cs => if p = c then dropPre ps cs else none

mutual
/-- One JSON value, recursive descent with explicit fuel (structural on the
fuel; `parseJson` supplies fuel that dominates `jfuel v` for any value `v`
whose print the input is). -/
def parseVal : Nat → List Char → Option (JVal × List Char)
  | 0, _ => none
  | fuel + 1, cs =>
    match skipWs cs with
    | [] => none
    | c :: rest =>
      if c = '"' then (parseStringBody rest).map (fun p => (.str p.1, p.2))
      else if c = '[' then
        let cs2 := skipWs rest
        if cs2.head? = some ']' then some (.arr [], cs2.tail)
        else (parseElems fuel cs2).map (fun p => (.arr p.1, p.2))
      else if c = '\x7b' then
        let cs2 := skipWs rest
        if cs2.head? = some '\x7d' then some (.obj [], cs2.tail)
        else (parseFields fuel cs2).map (fun p => (.obj p.1, p.2))
      else if c = 'n' then (dropPre (toL "ull") rest).map (fun r => (.null, r))
      else if c = 't' then (dropPre (toL "rue") rest).map (fun r => (.bool true, r))
      else if c = 'f' then (dropPre (toL "alse") rest).map (fun r => (.bool false, r))
      else parseNum (c :: rest)
/-- Elements of a non-empty JSON array, up to and including the closing
bracket. -/
def parseElems : Nat → List Char → Option (List JVal × List Char)
  | 0, _ => none
  | fuel + 1, cs =>
    match parseVal fuel cs with
    | none => none
    | some (v, rest) =>
      match skipWs rest with
      | [] => none
      | c :: r =>
        if c = ',' then (parseElems fuel r).map (fun p => (v :: p.1, p.2))
        else if c = ']' then some ([v], r)
        else none
/-- Fields of a non-empty JSON object, up to and including the closing
brace. -/
def parseFields : Nat → List Char → Option (List (List Char × JVal) × List Char)
  | 0, _ => none
  | fuel + 1, cs =>
    match skipWs cs with
    | [] => none
    | c0 :: r =>
      if c0 = '"' then
        match parseStringBody r with
        | none => none
        | some (k, r2) =>
          match skipWs r2 with
          | [] => none
          | c1 :: r3 =>
            if c1 = ':' then
              match parseVal fuel r3 with
              | none => none
              | some (v, r4) =>
                match skipWs r4 with
                | [] => none
                | c2 :: r5 =>
                  if c2 = ',' then (parseFields fuel r5).map (fun p => ((k, v) :: p.1, p.2))
                  else if c2 = '\x7d' then some ([(k, v)], r5)
                  else none
            else none
      else none
end

mutual
/-- Fuel sufficient for `parseVal` on a print of `v`. -/
def jfuel : JVal → Nat
  | .arr xs => 1 + efuel xs
  | .obj fs => 1 + ffuel fs
  | _ => 1
/-- Fuel sufficient for `parseElems` on a print of a non-empty `xs`. -/
def efuel : List JVal → Nat
  | [] => 0
  | x :: xs => 1 + max (jfuel x) (efuel xs)
/-- Fuel sufficient for `parseFields` on a print of a non-empty `fs`. -/
def ffuel : List (List Char × JVal) → Nat
  | [] => 0
  | (_, v) :: fs => 1 + max (jfuel v) (ffuel fs)
end

/-- A character that would extend or alter a just-parsed integer literal:
a digit or one of `.`/`e`/`E`. -/
def numCont (c : Char) : Bool :=
  c.isDigit || c = '.' || c = 'e' || c = 'E'

/-- The remainder after a printed value must not start with a character
that would glue onto a printed integer. -/
def noNumCont : List Char → Bool
  | [] => true
  | c :: _ => !(numCont c)

/-- Model of `json.loads` on one line: a value surrounded by optional whitespace
and nothing else. -/
def parseJson (cs : List Char) : Option JVal :=
  match parseVal (2 * cs.length + 2) cs with
  | none => none
  | some (v, rest) => if skipWs rest = [] then some v else none

/-! ### Coverage ledger (`src/coverage.py`)

The store is modelled per run: `commit_sha`, the registry key set
(`targets` — the claims depend only on the keys of the Python dict), the
covered key set, the in-memory record list, and the content of
`coverage/ledger.jsonl` as a list of lines (`fileLines`; `append_record`
never emits a newline inside a line, every control character is escaped).
Python exceptions that `src/coverage.py` does not catch (`AttributeError`
from `.get` on a non-dict, `TypeError` from iterating a non-iterable) are
modelled with `Except PyErr`. -/

inductive PyErr where
  | attributeError
  | typeError
deriving DecidableEq, Repr

/-- The `LedgerRecord` dataclass.  Replayed records take their fields from
`dict.get` with defaults, so a field can hold *any* JSON value; every
field is therefore a `JVal` (Python `None` is identified with JSON
`null`, exactly as `json.dumps`/`json.loads` do). -/
structure LedgerRecord where
  commit : JVal
  files : JVal
  model : JVal
  api_url : JVal
  max_context : JVal
  prompt_hash : JVal
  tokens : JVal
  status : JVal
  error_message : JVal
  ts : JVal
deriving Repr

/-- An `Optional[str]` as the JSON value `json.dumps` writes for it. -/
def jopt : Option (List Char) → JVal
  | none => .null
  | some s => .str s

/-- The fields of `record.__dict__` in dataclass declaration order. -/
def recFields (r : LedgerRecord) : List (List Char × JVal) :=
  [(toL "commit", r.commit), (toL "files", r.files), (toL "model", r.model),
   (toL "api_url", r.api_url), (toL "max_context", r.max_context),
   (toL "prompt_hash", r.prompt_hash), (toL "tokens", r.tokens),
   (toL "status", r.status), (toL "error_message", r.error_message),
   (toL "ts", r.ts)]

/-- The dict `record.__dict__` as serialised by `json.dumps` and re-read by
`json.loads`. -/
def recordToJVal (r : LedgerRecord) : JVal := .obj (recFields r)

/-- Model of `dict.get` on the fields of a parsed JSON object: the *last* binding of
the key wins, matching how `json.loads` builds the dict. -/
def objGet (fields : List (List Char × JVal)) (k : List Char) : Option JVal :=
  fields.foldl (fun acc p => if p.1 = k then some p.2 else acc) none

/-- The test `data.get("commit") != self.commit_sha` (negated): Python `==` between
the loaded JSON value for `"commit"` (absent ↦ `None`) and the store's
`Optional[str]` commit. -/
def pyEqCommit (c : Option JVal) (commit_sha : Option (List Char)) : Bool :=
  match c, commit_sha with
  | none, none => true
  | some .null, none => true
  | some (.str s), some t => s = t
  | _, _ => false

/-- Python `str(x)` for a value that passed an `isinstance(x, int)` check;
`True`/`False` are `int`s in Python, hence the `bool` cases. -/
def intLikeStr : JVal → Option (List Char)
  | .num n => some (intToDec n)
  | .bool true => some (toL "True")
  | .bool false => some (toL "False")
  | _ => none

/-- Model of `_target_key_from_entry`: the five `entry.get` calls with their
`isinstance` checks, then `f"{path}:{start}:{end}:{sha}:{chunk_id}"`.
Calling `.get` on a non-dict entry raises `AttributeError`. -/
def targetKeyFromEntry : JVal → Except PyErr (Option (List Char))
  | .obj fields =>
    match objGet fields (toL "path"), objGet fields (toL "sha256"),
        objGet fields (toL "start_line"), objGet fields (toL "end_line"),
        objGet fields (toL "chunk_id") with
    | some (.str p), some (.str sh), some sv, some ev, some (.str ci) =>
      match intLikeStr sv, intLikeStr ev with
      | some sstr, some estr =>
        .ok (some (p ++ ':' :: sstr ++ ':' :: estr ++ ':' :: sh ++ ':' :: ci))
      | _, _ => .ok none
    | _, _, _, _, _ => .ok none
  | _ => .error .attributeError

/-- The update `if key: self.covered.add(key)` (`None` and the empty string are
falsy; a produced key always contains colons, so the emptiness test never
fires in practice but is modelled faithfully). -/
def addKey (cov : Finset (List Char)) : Option (List Char) → Finset (List Char)
  | none => cov
  | some k => if k = [] then cov else insert k cov

/-- The `for file_entry in files` loop shared by `append_record` and
`_load_existing_records`: fold `_target_key_from_entry` over the entries,
adding each produced key to the covered set. -/
def coverFiles (cov : Finset (List Char)) : List JVal → Except PyErr (Finset (List Char))
  | [] => .ok cov
  | e :: es => do
    let k ← targetKeyFromEntry e
    coverFiles (addKey cov k) es

/-- The loop `for file_entry in record.files` on a *replayed* record, whose `files`
field can be any JSON value: a list iterates its elements, a string
iterates its characters (as 1-character strings), a dict iterates its
keys; anything else raises `TypeError`. -/
def entriesOf : JVal → Except PyErr (List JVal)
  | .arr xs => .ok xs
  | .str s => .ok (s.map fun c => JVal.str [c])
  | .obj fields => .ok (fields.map fun p => JVal.str p.1)
  | _ => .error .typeError

/-- The in-memory state `_load_existing_records` accumulates: the covered
set and the replayed record list. -/
structure LoadAcc where
  covered : Finset (List Char)
  records : List LedgerRecord

/-- Python's `line.strip()` (on the whitespace the ledger can contain). -/
def pyStrip (cs : List Char) : List Char :=
  ((cs.dropWhile isJsonWs).reverse.dropWhile isJsonWs).reverse

/-- One iteration of the `for line in handle` loop of
`_load_existing_records`: strip, skip empty, `json.loads` with
`JSONDecodeError` caught (parse failure ⇒ line skipped), commit filter,
record reconstruction via `dict.get` with defaults, covered-set update for
`"ok"` records.  A line whose JSON value is not an object hits
`data.get("commit")` and raises `AttributeError`, which the source does
not catch. -/
def loadLine (commit_sha : Option (List Char)) (acc : LoadAcc) (line : List Char) :
    Except PyErr LoadAcc :=
  let line := pyStrip line
  if line = [] then .ok acc
  else
    match parseJson line with
    | none => .ok acc
    | some data =>
      match data with
      | .obj fields =>
        if pyEqCommit (objGet fields (toL "commit")) commit_sha then
          let record : LedgerRecord :=
            { commit := (objGet fields (toL "commit")).getD .null
              files := (objGet fields (toL "files")).getD (.arr [])
              model := (objGet fields (toL "model")).getD (.str [])
              api_url := (objGet fields (toL "api_url")).getD (.str [])
              max_context := (objGet fields (toL "max_context")).getD (.num 0)
              prompt_hash := (objGet fields (toL "prompt_hash")).getD (.str [])
              tokens := (objGet fields (toL "tokens")).getD (.obj [])
              status := (objGet fields (toL "status")).getD (.str (toL "error"))
              error_message := (objGet fields (toL "error_message")).getD .null
              ts := (objGet fields (toL "ts")).getD (.str []) }
          let acc2 : LoadAcc := { acc with records := acc.records ++ [record] }
          match record.status with
          | .str s =>
            if s = toL "ok" then do
              let entries ← entriesOf record.files
              let cov ← coverFiles acc2.covered entries
              .ok { acc2 with covered := cov }
            else .ok acc2
          | _ => .ok acc2
        else .ok acc
      | _ => .error .attributeError

/-- The `CoverageLedger` state.  `targets` is the key set of the Python
`targets` dict; `fileLines` is the content of `ledger.jsonl`. -/
structure CoverageLedger where
  commit_sha : Option (List Char)
  targets : Finset (List Char)
  covered : Finset (List Char)
  records : List LedgerRecord
  fileLines : List (List Char)

/-- Construction of a `CoverageLedger` (`__post_init__` +
`_load_existing_records`) over a given ledger-file content. -/
def loadLedger (commit_sha : Option (List Char)) (lines : List (List Char)) :
    Except PyErr CoverageLedger := do
  let acc ← lines.foldlM (loadLine commit_sha) ⟨∅, []⟩
  .ok { commit_sha := commit_sha, targets := ∅, covered := acc.covered,
        records := acc.records, fileLines := lines }

/-- The `LedgerRecord` that `append_record` constructs from its arguments
(`ts` is `datetime.now(timezone.utc).isoformat()`, supplied by the
environment). -/
def mkRecord (commit_sha : Option (List Char)) (files : List JVal)
    (model_arg api_url_arg : List Char) (max_context_arg : Int)
    (prompt_hash_arg : List Char) (prompt_tokens completion_tokens : Int)
    (status_arg : List Char) (error_message_arg : Option (List Char))
    (ts_arg : List Char) : LedgerRecord :=
  { commit := jopt commit_sha
    files := .arr files
    model := .str model_arg
    api_url := .str api_url_arg
    max_context := .num max_context_arg
    prompt_hash := .str prompt_hash_arg
    tokens := .obj [(toL "prompt_est", .num prompt_tokens),
                    (toL "completion_est", .num completion_tokens)]
    status := .str status_arg
    error_message := jopt error_message_arg
    ts := .str ts_arg }

/-- Model of `append_record`: build the record, durably write its JSON line, append
it to the in-memory history, and for `"ok"` status fold the file entries
into the covered set.  If a file entry is not a dict the Python code
raises `AttributeError` out of the covered-set loop (after the write);
the model returns `.error` in that case. -/
def append_record (st : CoverageLedger) (files : List JVal)
    (model_arg api_url_arg : List Char) (max_context_arg : Int)
    (prompt_hash_arg : List Char) (prompt_tokens completion_tokens : Int)
    (status_arg : List Char) (error_message_arg : Option (List Char))
    (ts_arg : List Char) : Except PyErr CoverageLedger :=
  let record := mkRecord st.commit_sha files model_arg api_url_arg max_context_arg
    prompt_hash_arg prompt_tokens completion_tokens status_arg error_message_arg ts_arg
  let st1 : CoverageLedger :=
    { st with fileLines := st.fileLines ++ [printJVal (recordToJVal record)]
              records := st.records ++ [record] }
  if status_arg = toL "ok" then do
    let cov ← coverFiles st1.covered files
    .ok { st1 with covered := cov }
  else .ok st1

/-! ### Report builder (`build_report` of `src/coverage.py`, the aggregate
counts and the coverage ratio; the per-file/per-directory/histogram parts
of the report are outside the claims) -/

structure Report where
  total_segments : Nat
  covered_segments : Nat
  missed_segments : Nat
  coverage_ratio : ℚ

/-- Model of `build_report`: `total_segments = len(self.targets)`,
`covered_segments = len(self.covered & set(self.targets.keys()))`,
`missed_segments = len(set(self.targets.keys()) - self.covered)`,
`coverage_ratio = covered/total if total else 1.0`. -/
def build_report (st : CoverageLedger) : Report :=
  let total_segments := st.targets.card
  let covered_segments := (st.covered ∩ st.targets).card
  let missed_keys := st.targets \ st.covered
  { total_segments := total_segments
    covered_segments := covered_segments
    missed_segments := missed_keys.card
    coverage_ratio :=
      if total_segments ≠ 0 then (covered_segments : ℚ) / (total_segments : ℚ) else 1 }

/-! ### Concrete sample data used by the witnesses -/

/-- A sample ledger file entry (a reviewed chunk of `a.py`). -/
def entryA : JVal :=
  .obj [(toL "path", .str (toL "a.py")), (toL "sha256", .str (toL "s")),
        (toL "start_line", .num 1), (toL "end_line", .num 2),
        (toL "chunk_id", .str (toL "c"))]

/-- A freshly constructed store over an empty ledger file, commit `none`. -/
def emptyLedger : CoverageLedger :=
  { commit_sha := none, targets := ∅, covered := ∅, records := [], fileLines := [] }

/-- The sample record appended by the witnesses. -/
def recA : LedgerRecord :=
  mkRecord none [entryA] (toL "m") (toL "u") 4000 (toL "ph") 10 20 (toL "ok") none (toL "T")

/-- The store `emptyLedger` after appending an `"ok"` record for `entryA`. -/
def appendedLedger : CoverageLedger :=
  { emptyLedger with
    covered := insert (toL "a.py:1:2:s:c") ∅
    records := [recA]
    fileLines := [printJVal (recordToJVal recA)] }

/-- A store with one registered target key and nothing covered. -/
def oneKeyLedger : CoverageLedger :=
  { commit_sha := none, targets := {toL "k"}, covered := ∅, records := [], fileLines := [] }

/-! ### Chunker lemmas -/

set_option maxHeartbeats 1000000 in
theorem splitlinesGo_ne_nil : ∀ cs acc, splitlinesGo cs acc ≠ [] := by
  intro cs acc
  induction cs, acc using splitlinesGo.induct
  case case1 acc => simp [splitlinesGo.eq_1]
  case case2 acc => rw [splitlinesGo]; simp
  case case3 rest acc hrest ih =>
    rw [splitlinesGo.eq_3 _ _ hrest]
    simp
  case case4 c acc hbr hx =>
    rw [splitlinesGo.eq_4 _ _ hx, if_pos hbr]
    simp
  case case5 c rest acc hx hbr hrest ih =>
    rw [splitlinesGo.eq_5 _ _ _ hx hrest, if_pos hbr]
    simp
  case case6 c rest acc hx hbr ih =>
    rcases rest with _ | ⟨c2, r⟩
    · rw [splitlinesGo.eq_4 _ _ hx, if_neg hbr]
      exact ih
    · rw [splitlinesGo.eq_5 _ _ _ hx (by simp), if_neg hbr]
      exact ih

theorem pySplitlines_ne_nil (content : List Char) (h : content ≠ []) :
    pySplitlines content ≠ [] := by
  match content with
  | [] => exact absurd rfl h
  | c :: rest => exact splitlinesGo_ne_nil (c :: rest) []

theorem one_le_calculate_chunk_size (cl ml : Nat) : 1 ≤ calculate_chunk_size cl ml :=
  le_max_left 1 _

/-- The full invariant of the chunk loop, for any start offset:
non-empty result, first segment starts at `s + 1`, first segment ends at
`min total (s + chunk_size)`, last segment ends at `total`, all segments
lie inside `[s+1, total]` with ordered endpoints, every line of
`[s+1, total]` is covered, and consecutive segments advance while starting
exactly `overlap` lines before the previous end (plus one). -/
theorem chunkLoop_spec (lines : List (List Char)) (csz ov : Nat) (rp fh : List Char)
    (h1 : 1 ≤ csz) (h2 : ov < csz) :
    ∀ fuel s i, s < lines.length → lines.length - s ≤ fuel →
      chunkLoop lines csz ov rp fh fuel s i ≠ [] ∧
      (∀ d, ((chunkLoop lines csz ov rp fh fuel s i).headD d).start_line = s + 1) ∧
      (∀ d, ((chunkLoop lines csz ov rp fh fuel s i).headD d).end_line
        = min lines.length (s + csz)) ∧
      (∀ d, ((chunkLoop lines csz ov rp fh fuel s i).getLastD d).end_line = lines.length) ∧
      (∀ c ∈ chunkLoop lines csz ov rp fh fuel s i,
        s + 1 ≤ c.start_line ∧ c.start_line ≤ c.end_line ∧ c.end_line ≤ lines.length) ∧
      (∀ n, s + 1 ≤ n → n ≤ lines.length →
        ∃ c ∈ chunkLoop lines csz ov rp fh fuel s i, c.start_line ≤ n ∧ n ≤ c.end_line) ∧
      List.Chain' (fun a b => a.start_line < b.start_line ∧ a.end_line < b.end_line ∧
        b.start_line + ov = a.end_line + 1) (chunkLoop lines csz ov rp fh fuel s i) := by
  intro fuel
  induction fuel with
  | zero => intro s i hs hf; omega
  | succ f ih =>
    intro s i hs hf
    simp only [chunkLoop]
    rw [if_pos hs]
    by_cases hend : min lines.length (s + csz) = lines.length
    · rw [if_pos hend]
      have hse : s + 1 ≤ min lines.length (s + csz) := le_min hs (by omega)
      refine ⟨by simp, by simp [mkChunk], by simp [mkChunk], ?_, ?_, ?_, by simp⟩
      · intro d; simp [mkChunk, hend]
      · intro c hc
        rw [List.mem_singleton] at hc
        subst hc
        exact ⟨le_refl _, by simpa [mkChunk] using hse, by simp [mkChunk]⟩
      · intro n hn1 hn2
        refine ⟨_, List.mem_singleton_self _, by simpa [mkChunk] using hn1, ?_⟩
        simp [mkChunk, hend]
        omega
    · rw [if_neg hend]
      have hmin : min lines.length (s + csz) = s + csz := by
        rcases Nat.le_total lines.length (s + csz) with h | h
        · exact absurd (min_eq_left h) hend
        · exact min_eq_right h
      have hlt : s + csz < lines.length := by
        have := min_le_left lines.length (s + csz)
        omega
      set s2 := (if 0 < ov then min lines.length (s + csz) - ov else min lines.length (s + csz)) with hs2
      have hs2v : s2 = s + csz - ov := by
        rw [hs2, hmin]
        by_cases hov : 0 < ov
        · rw [if_pos hov]
        · rw [if_neg hov]; omega
      have hs2lt : s2 < lines.length := by omega
      have hfuel : lines.length - s2 ≤ f := by omega
      obtain ⟨ne2, hhead2, hheadend2, hlast2, hmem2, hcov2, hchain2⟩ := ih s2 (i + 1) hs2lt hfuel
      have hse : s + 1 ≤ s + csz := by omega
      refine ⟨by simp, by simp [mkChunk], by simp [mkChunk], ?_, ?_, ?_, ?_⟩
      · intro d
        rw [List.getLastD_cons]
        exact hlast2 _
      · intro c hc
        rcases List.mem_cons.1 hc with hc | hc
        · subst hc
          refine ⟨le_refl _, by simpa [mkChunk, hmin] using hse, by simp [mkChunk]⟩
        · obtain ⟨ha, hb, hcc⟩ := hmem2 c hc
          exact ⟨by omega, hb, hcc⟩
      · intro n hn1 hn2
        by_cases hn : n ≤ s + csz
        · refine ⟨_, List.mem_cons_self _ _, by simpa [mkChunk] using hn1, ?_⟩
          simp only [mkChunk]
          rw [hmin]
          omega
        · obtain ⟨c, hc, hca, hcb⟩ := hcov2 n (by omega) hn2
          exact ⟨c, List.mem_cons_of_mem _ hc, hca, hcb⟩
      · rcases hrest : chunkLoop lines csz ov rp fh f s2 (i + 1) with _ | ⟨b, t⟩
        · exact absurd hrest ne2
        · rw [List.chain'_cons']
          refine ⟨?_, by rw [← hrest]; exact hchain2⟩
          intro b2 hb2
          simp only [List.head?_cons, Option.mem_def, Option.some.injEq] at hb2
          subst hb2
          have hbs : b.start_line = s2 + 1 := by
            have h := hhead2 b
            rwa [hrest, List.headD_cons] at h
          have hbe : b.end_line = min lines.length (s2 + csz) := by
            have h := hheadend2 b
            rwa [hrest, List.headD_cons] at h
          have hbe2 : s + csz + 1 ≤ b.end_line := by
            rw [hbe]
            exact le_min (by omega) (by omega)
          simp only [mkChunk]
          rw [hmin]
          exact ⟨by omega, by omega, by omega⟩

theorem generate_chunks_eq_loop (hash : List Char → List Char) (content relative_path : List Char)
    (context_length max_lines : Nat) ( overlap_ratio : ℚ) (h : content ≠ []) :
    generate_chunks hash content relative_path context_length max_lines overlap_ratio
      = chunkLoop (pySplitlines content) (calculate_chunk_size context_length max_lines)
          (computeOverlap (calculate_chunk_size context_length max_lines) overlap_ratio)
          relative_path (hash content) (pySplitlines content).length 0 0 := by
  have hne : ¬ (pySplitlines content).length = 0 := by
    simpa [List.length_eq_zero] using pySplitlines_ne_nil content h
  simp only [generate_chunks]
  rw [if_neg hne]

theorem chunkLoop_content (lines : List (List Char)) (csz ov : Nat) (rp fh : List Char) :
    ∀ fuel s i c, c ∈ chunkLoop lines csz ov rp fh fuel s i →
      c.content = joinLines ((lines.drop (c.start_line - 1)).take
        (c.end_line + 1 - c.start_line)) := by
  intro fuel
  induction fuel with
  | zero => intro s i c hc; simp [chunkLoop] at hc
  | succ f ih =>
    intro s i c hc
    simp only [chunkLoop] at hc
    by_cases hs : s < lines.length
    · rw [if_pos hs] at hc
      by_cases hend : min lines.length (s + csz) = lines.length
      · rw [if_pos hend] at hc
        rw [List.mem_singleton] at hc
        subst hc
        simp [mkChunk, Nat.succ_sub_succ]
      · rw [if_neg hend] at hc
        rcases List.mem_cons.1 hc with hc | hc
        · subst hc; simp [mkChunk, Nat.succ_sub_succ]
        · exact ih _ _ _ hc
    · rw [if_neg hs] at hc; simp at hc

theorem chunkLoop_map_ranges (lines : List (List Char)) (csz ov : Nat) (rp fh : List Char) :
    ∀ fuel s i, (chunkLoop lines csz ov rp fh fuel s i).map (fun c => (c.start_line, c.end_line))
      = rangesLoop lines.length csz ov fuel s := by
  intro fuel
  induction fuel with
  | zero => intro s i; simp [chunkLoop, rangesLoop]
  | succ f ih =>
    intro s i
    simp only [chunkLoop, rangesLoop]
    by_cases hs : s < lines.length
    · rw [if_pos hs, if_pos hs]
      by_cases hend : min lines.length (s + csz) = lines.length
      · rw [if_pos hend, if_pos hend]
        simp [mkChunk]
      · rw [if_neg hend, if_neg hend]
        simp [mkChunk, ih]
    · rw [if_neg hs, if_neg hs]; simp

theorem chunkLoop_fuel_succ (lines : List (List Char)) (csz ov : Nat) (rp fh : List Char)
    (h1 : 1 ≤ csz) (h2 : ov < csz) :
    ∀ f s i, lines.length - s ≤ f →
      chunkLoop lines csz ov rp fh (f + 1) s i = chunkLoop lines csz ov rp fh f s i := by
  intro f
  induction f with
  | zero =>
    intro s i hf
    have hs : ¬ s < lines.length := by omega
    simp only [chunkLoop]
    rw [if_neg hs]
  | succ f ih =>
    intro s i hf
    simp only [chunkLoop]
    by_cases hs : s < lines.length
    · rw [if_pos hs, if_pos hs]
      by_cases hend : min lines.length (s + csz) = lines.length
      · rw [if_pos hend, if_pos hend]
      · rw [if_neg hend, if_neg hend]
        congr 1
        apply ih
        have hmin : min lines.length (s + csz) = s + csz := by
          rcases Nat.le_total lines.length (s + csz) with h | h
          · exact absurd (min_eq_left h) hend
          · exact min_eq_right h
        have hlt : s + csz < lines.length := by
          have := min_le_left lines.length (s + csz)
          omega
        by_cases hov : 0 < ov
        · rw [if_pos hov, hmin]; omega
        · rw [if_neg hov, hmin]; omega
    · rw [if_neg hs, if_neg hs]

theorem chunkLoop_fuel_ge (lines : List (List Char)) (csz ov : Nat) (rp fh : List Char)
    (h1 : 1 ≤ csz) (h2 : ov < csz) :
    ∀ f s i, lines.length - s ≤ f →
      chunkLoop lines csz ov rp fh f s i
        = chunkLoop lines csz ov rp fh (lines.length - s) s i := by
  intro f
  induction f with
  | zero =>
    intro s i hf
    have h0 : lines.length - s = 0 := by omega
    rw [h0]
  | succ f ih =>
    intro s i hf
    by_cases h : lines.length - s ≤ f
    · rw [chunkLoop_fuel_succ lines csz ov rp fh h1 h2 f s i h, ih s i h]
    · have h0 : lines.length - s = f + 1 := by omega
      rw [h0]

theorem Icc_inter_Icc_nat (s1 e1 s2 e2 : Nat) :
    Finset.Icc s1 e1 ∩ Finset.Icc s2 e2 = Finset.Icc (max s1 s2) (min e1 e2) := by
  ext n
  simp only [Finset.mem_inter, Finset.mem_Icc, max_le_iff, le_min_iff]
  omega

/-- C1: for every non-empty file content and all parameters whose computed
overlap-in-lines is strictly below the computed segment size,
`generate_chunks` returns a non-empty ordered list of segments whose
1-based `[start_line, end_line]` ranges start at line 1, end at the total
line count, stay inside the file, cover every line with no gaps, and every
pair of consecutive segments shares exactly the computed overlap number of
lines (here proved for all pairs, final pair included). -/
theorem chunker_C1_coverage (hash : List Char → List Char) (content relative_path : List Char)
    (context_length max_lines : Nat) ( overlap_ratio : ℚ)
    (hne : content ≠ [])
    (hov : computeOverlap (calculate_chunk_size context_length max_lines) overlap_ratio
      < calculate_chunk_size context_length max_lines) :
    generate_chunks hash content relative_path context_length max_lines overlap_ratio ≠ [] ∧
    (∀ d, ((generate_chunks hash content relative_path context_length max_lines
      overlap_ratio).headD d).start_line = 1) ∧
    (∀ d, ((generate_chunks hash content relative_path context_length max_lines
      overlap_ratio).getLastD d).end_line = (pySplitlines content).length) ∧
    (∀ c ∈ generate_chunks hash content relative_path context_length max_lines overlap_ratio,
      1 ≤ c.start_line ∧ c.start_line ≤ c.end_line ∧
        c.end_line ≤ (pySplitlines content).length) ∧
    (∀ n, 1 ≤ n → n ≤ (pySplitlines content).length →
      ∃ c ∈ generate_chunks hash content relative_path context_length max_lines overlap_ratio,
        c.start_line ≤ n ∧ n ≤ c.end_line) ∧
    List.Chain' (fun a b => a.start_line < b.start_line ∧ a.end_line < b.end_line ∧
        (Finset.Icc a.start_line a.end_line ∩ Finset.Icc b.start_line b.end_line).card
          = computeOverlap (calculate_chunk_size context_length max_lines) overlap_ratio)
      (generate_chunks hash content relative_path context_length max_lines overlap_ratio) := by
  have h0 : 0 < (pySplitlines content).length :=
    List.length_pos.2 (pySplitlines_ne_nil content hne)
  obtain ⟨hne', hhead, hheadend, hlast, hmem, hcov, hchain⟩ :=
    chunkLoop_spec (pySplitlines content) (calculate_chunk_size context_length max_lines)
      (computeOverlap (calculate_chunk_size context_length max_lines) overlap_ratio)
      relative_path (hash content) (one_le_calculate_chunk_size _ _) hov
      (pySplitlines content).length 0 0 h0 (by omega)
  rw [generate_chunks_eq_loop hash content relative_path context_length max_lines overlap_ratio hne]
  refine ⟨hne', by simpa using hhead, hlast, by simpa using hmem, by simpa using hcov, ?_⟩
  refine List.Chain'.imp ?_ hchain
  intro a b hab
  obtain ⟨hab1, hab2, hab3⟩ := hab
  refine ⟨hab1, hab2, ?_⟩
  rw [Icc_inter_Icc_nat, max_eq_right (le_of_lt hab1), min_eq_left (le_of_lt hab2),
    Nat.card_Icc]
  omega

/-- Witness for C1: the 2-line file `"a\nb"` with context length 1000,
max lines 1000, overlap ratio `1/20`. -/
theorem chunker_C1_coverage_witness :
    (toL "a\nb" ≠ ([] : List Char)) ∧
    (computeOverlap (calculate_chunk_size 1000 1000) ratioP05
      < calculate_chunk_size 1000 1000) ∧
    (generate_chunks (fun _ => toL "h") (toL "a\nb") (toL "p") 1000 1000 ratioP05 ≠ [] ∧
    (∀ d, ((generate_chunks (fun _ => toL "h") (toL "a\nb") (toL "p") 1000 1000
      ratioP05).headD d).start_line = 1) ∧
    (∀ d, ((generate_chunks (fun _ => toL "h") (toL "a\nb") (toL "p") 1000 1000
      ratioP05).getLastD d).end_line = (pySplitlines (toL "a\nb")).length) ∧
    (∀ c ∈ generate_chunks (fun _ => toL "h") (toL "a\nb") (toL "p") 1000 1000 ratioP05,
      1 ≤ c.start_line ∧ c.start_line ≤ c.end_line ∧
        c.end_line ≤ (pySplitlines (toL "a\nb")).length) ∧
    (∀ n, 1 ≤ n → n ≤ (pySplitlines (toL "a\nb")).length →
      ∃ c ∈ generate_chunks (fun _ => toL "h") (toL "a\nb") (toL "p") 1000 1000 ratioP05,
        c.start_line ≤ n ∧ n ≤ c.end_line) ∧
    List.Chain' (fun a b => a.start_line < b.start_line ∧ a.end_line < b.end_line ∧
        (Finset.Icc a.start_line a.end_line ∩ Finset.Icc b.start_line b.end_line).card
          = computeOverlap (calculate_chunk_size 1000 1000) ratioP05)
      (generate_chunks (fun _ => toL "h") (toL "a\nb") (toL "p") 1000 1000 ratioP05)) :=
  ⟨by decide, by decide,
    chunker_C1_coverage (fun _ => toL "h") (toL "a\nb") (toL "p") 1000 1000 ratioP05
      (by decide) (by decide)⟩

/-- C4: for any file of exactly 120 lines chunked with
`context_length = 1000`, `max_lines = 1000`, `overlap_ratio = 0.05`, the
effective segment size is 60 lines and the overlap is `round(60*0.05) = 3`,
and `generate_chunks` produces exactly the three segments
`[1,60]`, `[58,117]`, `[115,120]`. -/
theorem chunker_C4_example (hash : List Char → List Char) (content relative_path : List Char)
    (h : (pySplitlines content).length = 120) :
    calculate_chunk_size 1000 1000 = 60 ∧
    computeOverlap 60 ratioP05 = 3 ∧
    (generate_chunks hash content relative_path 1000 1000 ratioP05).map
      (fun c => (c.start_line, c.end_line)) = [(1, 60), (58, 117), (115, 120)] := by
  refine ⟨by decide, by decide, ?_⟩
  have hne : content ≠ [] := by
    intro hc
    subst hc
    simp [pySplitlines] at h
  rw [generate_chunks_eq_loop hash content relative_path 1000 1000 ratioP05 hne,
    chunkLoop_map_ranges, h,
    show calculate_chunk_size 1000 1000 = 60 from by decide,
    show computeOverlap 60 ratioP05 = 3 from by decide]
  decide

/-- Witness for C4: a file of 120 one-character lines. -/
theorem chunker_C4_example_witness :
    ((pySplitlines (joinLines (List.replicate 120 (toL "x")))).length = 120) ∧
    (calculate_chunk_size 1000 1000 = 60 ∧
    computeOverlap 60 ratioP05 = 3 ∧
    (generate_chunks (fun _ => toL "h") (joinLines (List.replicate 120 (toL "x")))
        (toL "p") 1000 1000 ratioP05).map
      (fun c => (c.start_line, c.end_line)) = [(1, 60), (58, 117), (115, 120)]) :=
  ⟨by decide,
    chunker_C4_example (fun _ => toL "h") (joinLines (List.replicate 120 (toL "x")))
      (toL "p") (by decide)⟩

/-- C5: whenever the computed overlap is strictly below the computed
segment size, the chunking loop of `generate_chunks` terminates: with any
fuel of at least the total line count the loop computes the same value
(so the unbounded Python loop stabilises), and the loop stops immediately
— returning only the current segment — as soon as a segment's end index
reaches the total line count. -/
theorem chunker_C5_termination (hash : List Char → List Char) (content relative_path : List Char)
    (context_length max_lines : Nat) ( overlap_ratio : ℚ)
    (hov : computeOverlap (calculate_chunk_size context_length max_lines) overlap_ratio
      < calculate_chunk_size context_length max_lines) :
    (∀ f1 f2, (pySplitlines content).length ≤ f1 → (pySplitlines content).length ≤ f2 →
      chunkLoop (pySplitlines content) (calculate_chunk_size context_length max_lines)
        (computeOverlap (calculate_chunk_size context_length max_lines) overlap_ratio)
        relative_path (hash content) f1 0 0
      = chunkLoop (pySplitlines content) (calculate_chunk_size context_length max_lines)
        (computeOverlap (calculate_chunk_size context_length max_lines) overlap_ratio)
        relative_path (hash content) f2 0 0) ∧
    (∀ f s i, s < (pySplitlines content).length →
      (pySplitlines content).length ≤ s + calculate_chunk_size context_length max_lines →
      chunkLoop (pySplitlines content) (calculate_chunk_size context_length max_lines)
        (computeOverlap (calculate_chunk_size context_length max_lines) overlap_ratio)
        relative_path (hash content) (f + 1) s i
      = [mkChunk (pySplitlines content) s (pySplitlines content).length i
          relative_path (hash content)]) := by
  constructor
  · intro f1 f2 hf1 hf2
    rw [chunkLoop_fuel_ge _ _ _ _ _ (one_le_calculate_chunk_size _ _) hov f1 0 0 (by omega),
      chunkLoop_fuel_ge _ _ _ _ _ (one_le_calculate_chunk_size _ _) hov f2 0 0 (by omega)]
  · intro f s i hs hend
    simp only [chunkLoop]
    rw [if_pos hs, min_eq_left hend, if_pos rfl]

/-- Witness for C5: the 2-line file `"a\nb"`, fuels 2 and 5, and the
stop equation at offset 0. -/
theorem chunker_C5_termination_witness :
    (computeOverlap (calculate_chunk_size 1000 1000) ratioP05
      < calculate_chunk_size 1000 1000) ∧
    (chunkLoop (pySplitlines (toL "a\nb")) (calculate_chunk_size 1000 1000)
        (computeOverlap (calculate_chunk_size 1000 1000) ratioP05)
        (toL "p") ((fun _ => toL "h") (toL "a\nb")) 2 0 0
      = chunkLoop (pySplitlines (toL "a\nb")) (calculate_chunk_size 1000 1000)
        (computeOverlap (calculate_chunk_size 1000 1000) ratioP05)
        (toL "p") ((fun _ => toL "h") (toL "a\nb")) 5 0 0) ∧
    (chunkLoop (pySplitlines (toL "a\nb")) (calculate_chunk_size 1000 1000)
        (computeOverlap (calculate_chunk_size 1000 1000) ratioP05)
        (toL "p") ((fun _ => toL "h") (toL "a\nb")) (0 + 1) 0 0
      = [mkChunk (pySplitlines (toL "a\nb")) 0 (pySplitlines (toL "a\nb")).length 0
          (toL "p") ((fun _ => toL "h") (toL "a\nb"))]) :=
  ⟨by decide,
    (chunker_C5_termination (fun _ => toL "h") (toL "a\nb") (toL "p") 1000 1000 ratioP05
      (by decide)).1 2 5 (by decide) (by decide),
    (chunker_C5_termination (fun _ => toL "h") (toL "a\nb") (toL "p") 1000 1000 ratioP05
      (by decide)).2 0 0 0 (by decide) (by decide)⟩

/-- C8: for empty content (zero lines), `generate_chunks` returns exactly
one segment with `start_line = 1`, `end_line = 1`, `index = 0` and empty
content (its id is `{relative_path}#{hash}@0`). -/
theorem chunker_C8_empty (hash : List Char → List Char) (relative_path : List Char)
    (context_length max_lines : Nat) ( overlap_ratio : ℚ) :
    generate_chunks hash [] relative_path context_length max_lines overlap_ratio
      = [{ content := [], start_line := 1, end_line := 1, index := 0,
           chunk_id := relative_path ++ '#' :: hash [] ++ '@' :: natToDec 0,
           sha256 := hash [] }] := rfl

/-- C9 (amended): every segment's `content` is the `"\n"`-join of the
file's lines (as split by Python `splitlines`) from `start_line` through
`end_line` — not in general the verbatim character slice of the original
file (see the counterexample with a CRLF file). -/
theorem chunker_C9_amended (hash : List Char → List Char) (content relative_path : List Char)
    (context_length max_lines : Nat) ( overlap_ratio : ℚ) :
    ∀ c ∈ generate_chunks hash content relative_path context_length max_lines overlap_ratio,
      c.content = joinLines (((pySplitlines content).drop (c.start_line - 1)).take
        (c.end_line + 1 - c.start_line)) := by
  intro c hc
  by_cases hne : content = []
  · subst hne
    rw [show generate_chunks hash [] relative_path context_length max_lines overlap_ratio
        = [{ content := [], start_line := 1, end_line := 1, index := 0,
             chunk_id := relative_path ++ '#' :: hash [] ++ '@' :: natToDec 0,
             sha256 := hash [] }] from rfl, List.mem_singleton] at hc
    subst hc
    rfl
  · rw [generate_chunks_eq_loop hash content relative_path context_length max_lines
      overlap_ratio hne] at hc
    exact chunkLoop_content _ _ _ _ _ _ _ _ _ hc

/-- Witness for C9 (amended): the single chunk of the file `"a\nb"`. -/
theorem chunker_C9_amended_witness :
    (mkChunk (pySplitlines (toL "a\nb")) 0 2 0 (toL "p") (toL "h")
      ∈ generate_chunks (fun _ => toL "h") (toL "a\nb") (toL "p") 1000 1000 ratioP05) ∧
    (mkChunk (pySplitlines (toL "a\nb")) 0 2 0 (toL "p") (toL "h")).content
      = joinLines (((pySplitlines (toL "a\nb")).drop
          ((mkChunk (pySplitlines (toL "a\nb")) 0 2 0 (toL "p") (toL "h")).start_line - 1)).take
          ((mkChunk (pySplitlines (toL "a\nb")) 0 2 0 (toL "p") (toL "h")).end_line + 1
            - (mkChunk (pySplitlines (toL "a\nb")) 0 2 0 (toL "p") (toL "h")).start_line)) :=
  ⟨by decide,
    chunker_C9_amended (fun _ => toL "h") (toL "a\nb") (toL "p") 1000 1000 ratioP05
      (mkChunk (pySplitlines (toL "a\nb")) 0 2 0 (toL "p") (toL "h")) (by decide)⟩

/-- C9 (counterexample to the claim as stated): for the CRLF file
`"a\r\nb"` the single segment spans lines 1–2 — the whole file, whose
exact text is `"a\r\nb"` — but its `content` is `"a\nb"`: the content is
not the character-for-character text of the slice, and does not even occur
as a contiguous character run in the original file. -/
theorem chunker_C9_counterexample :
    ((generate_chunks (fun _ => toL "h") (toL "a\r\nb") (toL "p") 1000 1000 ratioP05).map
      (fun c => (c.start_line, c.end_line, c.content)) = [(1, 2, toL "a\nb")]) ∧
    toL "a\nb" ≠ toL "a\r\nb" ∧
    ¬ (toL "a\nb" <:+: toL "a\r\nb") :=
  ⟨by decide, by decide, by decide⟩

/-! ### JSON print/parse round trip -/

theorem digitChar_toNat (n : Nat) (h : n < 10) : (digitChar n).toNat = 48 + n := by
  interval_cases n <;> rfl

theorem digitChar_isDigit (n : Nat) (h : n < 10) : (digitChar n).isDigit = true := by
  interval_cases n <;> decide

theorem digitChar_ne_zero (n : Nat) (h1 : 1 ≤ n) (h2 : n < 10) : digitChar n ≠ '0' := by
  interval_cases n <;> decide

theorem natToDecAux_spec : ∀ fuel n, n < fuel →
    natToDecAux fuel n ≠ [] ∧
    (∀ c ∈ natToDecAux fuel n, c.isDigit = true) ∧
    (∀ acc, List.foldl (fun m c => 10 * m + (c.toNat - 48)) acc (natToDecAux fuel n)
      = acc * 10 ^ (natToDecAux fuel n).length + n) ∧
    (1 ≤ n → ∀ ds, natToDecAux fuel n ≠ '0' :: ds) := by
  intro fuel
  induction fuel with
  | zero => intro n h; omega
  | succ f ih =>
    intro n h
    by_cases h10 : n < 10
    · simp only [natToDecAux, if_pos h10]
      refine ⟨by simp, ?_, ?_, ?_⟩
      · intro c hc
        rw [List.mem_singleton] at hc
        subst hc
        exact digitChar_isDigit n h10
      · intro acc
        simp [digitChar_toNat n h10]
        ring
      · intro h1 ds heq
        rw [List.cons.injEq] at heq
        exact digitChar_ne_zero n h1 h10 heq.1
    · have hpos : 0 < n := by omega
      have hdiv : n / 10 < n := Nat.div_lt_self hpos (by omega)
      have hn10 : n / 10 < f := by omega
      obtain ⟨ihne, ihdig, ihfold, ihzero⟩ := ih (n / 10) hn10
      simp only [natToDecAux, if_neg h10]
      refine ⟨by simp [ihne], ?_, ?_, ?_⟩
      · intro c hc
        rcases List.mem_append.1 hc with hc | hc
        · exact ihdig c hc
        · rw [List.mem_singleton] at hc
          subst hc
          exact digitChar_isDigit _ (by omega)
      · intro acc
        rw [List.foldl_append, ihfold acc, List.length_append]
        simp only [List.foldl, List.length_singleton]
        rw [digitChar_toNat (n % 10) (by omega)]
        rw [pow_succ, Nat.add_sub_cancel_left, ← mul_assoc]
        generalize acc * 10 ^ (natToDecAux f (n / 10)).length = A
        omega
      · intro _ ds heq
        rcases haux : natToDecAux f (n / 10) with _ | ⟨c0, t⟩
        · exact ihne haux
        · rw [haux, List.cons_append, List.cons.injEq] at heq
          exact ihzero (by omega) t (by rw [haux, heq.1])

theorem natToDec_ne_nil (n : Nat) : natToDec n ≠ [] :=
  (natToDecAux_spec (n + 1) n (by omega)).1

theorem natToDec_digits (n : Nat) : ∀ c ∈ natToDec n, c.isDigit = true :=
  (natToDecAux_spec (n + 1) n (by omega)).2.1

theorem digitsToNat_natToDec (n : Nat) : digitsToNat (natToDec n) = n := by
  have h := (natToDecAux_spec (n + 1) n (by omega)).2.2.1 0
  rw [Nat.zero_mul, Nat.zero_add] at h
  exact h

theorem natToDec_no_leading_zero (n : Nat) (h : 1 ≤ n) : ∀ ds, natToDec n ≠ '0' :: ds :=
  (natToDecAux_spec (n + 1) n (by omega)).2.2.2 h

theorem takeWhile_append_all (p : Char → Bool) :
    ∀ l1 l2 : List Char, (∀ c ∈ l1, p c = true) → (∀ c, l2.head? = some c → p c = false) →
      (l1 ++ l2).takeWhile p = l1 ∧ (l1 ++ l2).dropWhile p = l2 := by
  intro l1
  induction l1 with
  | nil =>
    intro l2 _ h2
    cases l2 with
    | nil => simp
    | cons c t => simp [List.takeWhile_cons, List.dropWhile_cons, h2 c rfl]
  | cons a t ih =>
    intro l2 h1 h2
    have ha : p a = true := h1 a (List.mem_cons_self a t)
    obtain ⟨ih1, ih2⟩ := ih l2 (fun c hc => h1 c (List.mem_cons_of_mem a hc)) h2
    simp [List.takeWhile_cons, List.dropWhile_cons, ha, ih1, ih2]

theorem parseNatNum_natToDec (n : Nat) (rest : List Char) (h : noNumCont rest = true) :
    parseNatNum (natToDec n ++ rest) = some (n, rest) := by
  have hrest : ∀ c, rest.head? = some c → c.isDigit = false := by
    intro c hc
    cases rest with
    | nil => simp at hc
    | cons c2 t =>
      simp only [List.head?_cons, Option.some.injEq] at hc
      subst hc
      simp only [noNumCont, numCont, Bool.not_eq_true', Bool.or_eq_false_iff] at h
      exact h.1.1.1
  obtain ⟨htake, hdrop⟩ := takeWhile_append_all Char.isDigit (natToDec n) rest
    (natToDec_digits n) hrest
  simp only [parseNatNum, htake, hdrop]
  rw [if_neg (natToDec_ne_nil n)]
  have hzero : ¬ (2 ≤ (natToDec n).length ∧ (natToDec n).head? = some '0') := by
    rintro ⟨hlen, hhead⟩
    rcases hd : natToDec n with _ | ⟨d, ds2⟩
    · exact absurd hd (natToDec_ne_nil n)
    · rw [hd] at hhead hlen
      simp only [List.head?_cons, Option.some.injEq] at hhead
      subst hhead
      rcases Nat.eq_zero_or_pos n with hn | hn
      · subst hn
        rw [show natToDec 0 = ['0'] from rfl, List.cons.injEq] at hd
        rw [hd.2.symm] at hlen
        simp at hlen
      · exact natToDec_no_leading_zero n hn ds2 hd
  rw [if_neg hzero]
  have hfloat : ¬ (rest.head? = some '.' ∨ rest.head? = some 'e' ∨ rest.head? = some 'E') := by
    rintro (hc | hc | hc) <;>
      · cases rest with
        | nil => simp at hc
        | cons c2 t =>
          simp only [List.head?_cons, Option.some.injEq] at hc
          subst hc
          simp [noNumCont, numCont] at h
  rw [if_neg hfloat, digitsToNat_natToDec n]

theorem parseNum_intToDec (n : Int) (rest : List Char) (h : noNumCont rest = true) :
    parseNum (intToDec n ++ rest) = some (.num n, rest) := by
  cases n with
  | ofNat m =>
    rw [show intToDec (.ofNat m) = natToDec m from rfl]
    rcases hd : natToDec m with _ | ⟨d, ds2⟩
    · exact absurd hd (natToDec_ne_nil m)
    · have hdig : d.isDigit = true :=
        natToDec_digits m d (by rw [hd]; exact List.mem_cons_self d ds2)
      have hdm : ¬ d = '-' := by
        intro heq
        subst heq
        exact absurd hdig (by decide)
      rw [List.cons_append]
      rw [parseNum]
      rw [if_neg hdm]
      rw [← List.cons_append]
      rw [← hd]
      rw [parseNatNum_natToDec m rest h]
      rfl
  | negSucc m =>
    rw [show intToDec (.negSucc m) = '-' :: natToDec (m + 1) from rfl, List.cons_append,
      parseNum, if_pos rfl, parseNatNum_natToDec (m + 1) rest h]
    simp [Int.negSucc_eq]

theorem hexVal_hexDigitChar (k : Nat) (h : k < 16) : hexVal (hexDigitChar k) = some k := by
  interval_cases k <;> rfl

theorem psb_escape_pair (e ch : Char) (l : List Char) (he : ¬ e = 'u')
    (hu : unescapeChar e = some ch) :
    parseStringBody ('\\' :: e :: l) = (parseStringBody l).map (fun p => (ch :: p.1, p.2)) := by
  rw [parseStringBody.eq_4 _ _ (fun a b c d r hh _ => absurd hh he), hu]

theorem parseStringBody_escape : ∀ (s rest : List Char),
    parseStringBody (escapeStr s ++ '"' :: rest) = some (s, rest) := by
  intro s
  induction s with
  | nil => intro rest; rfl
  | cons c s ih =>
    intro rest
    rw [show escapeStr (c :: s) = escapeChar c ++ escapeStr s from rfl, List.append_assoc]
    by_cases h1 : c = '"'
    · subst h1
      rw [show escapeChar '"' = ['\\', '"'] from rfl]
      simp only [List.cons_append, List.nil_append]
      rw [psb_escape_pair '"' '"' _ (by decide) rfl, ih]
      rfl
    by_cases h2 : c = '\\'
    · subst h2
      rw [show escapeChar '\\' = ['\\', '\\'] from rfl]
      simp only [List.cons_append, List.nil_append]
      rw [psb_escape_pair '\\' '\\' _ (by decide) rfl, ih]
      rfl
    by_cases h3 : c = '\n'
    · subst h3
      rw [show escapeChar '\n' = ['\\', 'n'] from rfl]
      simp only [List.cons_append, List.nil_append]
      rw [psb_escape_pair 'n' '\n' _ (by decide) rfl, ih]
      rfl
    by_cases h4 : c = '\r'
    · subst h4
      rw [show escapeChar '\r' = ['\\', 'r'] from rfl]
      simp only [List.cons_append, List.nil_append]
      rw [psb_escape_pair 'r' '\r' _ (by decide) rfl, ih]
      rfl
    by_cases h5 : c = '\t'
    · subst h5
      rw [show escapeChar '\t' = ['\\', 't'] from rfl]
      simp only [List.cons_append, List.nil_append]
      rw [psb_escape_pair 't' '\t' _ (by decide) rfl, ih]
      rfl
    by_cases h6 : c = '\x08'
    · subst h6
      rw [show escapeChar '\x08' = ['\\', 'b'] from rfl]
      simp only [List.cons_append, List.nil_append]
      rw [psb_escape_pair 'b' '\x08' _ (by decide) rfl, ih]
      rfl
    by_cases h7 : c = '\x0c'
    · subst h7
      rw [show escapeChar '\x0c' = ['\\', 'f'] from rfl]
      simp only [List.cons_append, List.nil_append]
      rw [psb_escape_pair 'f' '\x0c' _ (by decide) rfl, ih]
      rfl
    by_cases h32 : c.toNat < 32
    · have he : escapeChar c
          = ['\\', 'u', '0', '0', hexDigitChar (c.toNat / 16), hexDigitChar (c.toNat % 16)] := by
        simp only [escapeChar, if_neg h1, if_neg h2, if_neg h3, if_neg h4, if_neg h5,
          if_neg h6, if_neg h7, if_pos h32]
      rw [he]
      simp only [List.cons_append, List.nil_append]
      rw [parseStringBody.eq_3]
      rw [show hexVal '0' = some 0 from rfl,
        hexVal_hexDigitChar (c.toNat / 16) (by omega),
        hexVal_hexDigitChar (c.toNat % 16) (by omega)]
      simp only []
      rw [ih]
      have harith : ((0 * 16 + 0) * 16 + c.toNat / 16) * 16 + c.toNat % 16 = c.toNat := by
        omega
      rw [harith, Char.ofNat_toNat]
      rfl
    · have he : escapeChar c = [c] := by
        simp only [escapeChar, if_neg h1, if_neg h2, if_neg h3, if_neg h4, if_neg h5,
          if_neg h6, if_neg h7, if_neg h32]
      rw [he]
      simp only [List.cons_append, List.nil_append]
      rw [parseStringBody.eq_5 _ _ (fun hh => h1 hh)
        (fun _ _ _ _ _ hh _ => h2 hh) (fun _ _ hh _ => h2 hh)]
      rw [if_neg h32, ih]
      rfl

theorem skipWs_cons_of_not_ws (c : Char) (l : List Char) (h : isJsonWs c = false) :
    skipWs (c :: l) = c :: l := by
  simp [skipWs, h]

theorem printJVal_head_class : ∀ v : JVal, ∃ c t, printJVal v = c :: t ∧
    (c = '"' ∨ c = '[' ∨ c = '\x7b' ∨ c = 'n' ∨ c = 't' ∨ c = 'f'
      ∨ c = '-' ∨ c.isDigit = true) := by
  intro v
  cases v with
  | null => exact ⟨'n', _, rfl, by tauto⟩
  | bool b => cases b with
    | true => exact ⟨'t', _, rfl, by tauto⟩
    | false => exact ⟨'f', _, rfl, by tauto⟩
  | num n =>
    cases n with
    | ofNat m =>
      rcases hd : natToDec m with _ | ⟨d, t⟩
      · exact absurd hd (natToDec_ne_nil m)
      · have hdig : d.isDigit = true :=
          natToDec_digits m d (by rw [hd]; exact List.mem_cons_self d t)
        exact ⟨d, t, by rw [show printJVal (.num (.ofNat m)) = natToDec m from rfl, hd],
          by tauto⟩
    | negSucc m => exact ⟨'-', _, rfl, by tauto⟩
  | str s => exact ⟨'"', _, rfl, by tauto⟩
  | arr xs => exact ⟨'[', _, rfl, by tauto⟩
  | obj fs => exact ⟨'\x7b', _, rfl, by tauto⟩

theorem headClass_not_ws (c : Char)
    (h : c = '"' ∨ c = '[' ∨ c = '\x7b' ∨ c = 'n' ∨ c = 't' ∨ c = 'f'
      ∨ c = '-' ∨ c.isDigit = true) : isJsonWs c = false := by
  rcases h with h | h | h | h | h | h | h | h
  any_goals (subst h; decide)
  simp only [isJsonWs, Bool.or_eq_false_iff, decide_eq_false_iff_not]
  refine ⟨⟨⟨?_, ?_⟩, ?_⟩, ?_⟩ <;> (intro heq; subst heq; exact absurd h (by decide))

theorem headClass_not_delim (c : Char)
    (h : c = '"' ∨ c = '[' ∨ c = '\x7b' ∨ c = 'n' ∨ c = 't' ∨ c = 'f'
      ∨ c = '-' ∨ c.isDigit = true) : ¬ c = ']' ∧ ¬ c = '\x7d' := by
  rcases h with h | h | h | h | h | h | h | h
  any_goals (subst h; exact ⟨by decide, by decide⟩)
  exact ⟨fun heq => by subst heq; exact absurd h (by decide),
    fun heq => by subst heq; exact absurd h (by decide)⟩

theorem numHead_not_special (c : Char) (h : c = '-' ∨ c.isDigit = true) :
    ¬ c = '"' ∧ ¬ c = '[' ∧ ¬ c = '\x7b' ∧ ¬ c = 'n' ∧ ¬ c = 't' ∧ ¬ c = 'f' := by
  refine ⟨?_, ?_, ?_, ?_, ?_, ?_⟩ <;>
    (intro heq; subst heq; revert h; decide)

theorem printElems_cons_head : ∀ (x : JVal) (xs : List JVal),
    ∃ t, printElems (x :: xs) = printJVal x ++ t := by
  intro x xs
  cases xs with
  | nil => exact ⟨[], (List.append_nil _).symm⟩
  | cons y ys => exact ⟨',' :: ' ' :: printElems (y :: ys), rfl⟩

theorem printFields_cons_head : ∀ (k : List Char) (v : JVal) (fs : List (List Char × JVal)),
    ∃ t, printFields ((k, v) :: fs) = '"' :: (escapeStr k ++ '"' :: ':' :: ' ' :: t) := by
  intro k v fs
  cases fs with
  | nil =>
    refine ⟨printJVal v, ?_⟩
    show '"' :: escapeStr k ++ '"' :: ':' :: ' ' :: printJVal v = _
    simp
  | cons kv fs' =>
    refine ⟨printJVal v ++ ',' :: ' ' :: printFields (kv :: fs'), ?_⟩
    show ('"' :: escapeStr k ++ '"' :: ':' :: ' ' :: printJVal v) ++ ',' :: ' ' :: printFields (kv :: fs') = _
    simp

theorem parseVal_cons_ws : ∀ (f : Nat) (X : List Char), parseVal f (' ' :: X) = parseVal f X := by
  intro f X
  cases f with
  | zero => rfl
  | succ f =>
    rw [parseVal, parseVal, show skipWs (' ' :: X) = skipWs X from rfl]

theorem parseElems_cons_ws : ∀ (f : Nat) (X : List Char),
    parseElems f (' ' :: X) = parseElems f X := by
  intro f X
  cases f with
  | zero => rfl
  | succ f => rw [parseElems, parseElems, parseVal_cons_ws]

theorem parseFields_cons_ws : ∀ (f : Nat) (X : List Char),
    parseFields f (' ' :: X) = parseFields f X := by
  intro f X
  cases f with
  | zero => rfl
  | succ f =>
    rw [parseFields, parseFields, show skipWs (' ' :: X) = skipWs X from rfl]

/-- Round trip: `parseVal` (with enough fuel) parses a printed JSON value
back to the same value, leaving the remainder untouched; similarly for
element lists and field lists.  The remainder must not begin with a
character that could extend a printed integer. -/
theorem parse_print : ∀ fuel : Nat,
    (∀ (v : JVal) (rest : List Char), jfuel v ≤ fuel → noNumCont rest = true →
      parseVal fuel (printJVal v ++ rest) = some (v, rest)) ∧
    (∀ (xs : List JVal) (rest : List Char), xs ≠ [] → efuel xs ≤ fuel →
      noNumCont rest = true →
      parseElems fuel (printElems xs ++ ']' :: rest) = some (xs, rest)) ∧
    (∀ (fs : List (List Char × JVal)) (rest : List Char), fs ≠ [] → ffuel fs ≤ fuel →
      noNumCont rest = true →
      parseFields fuel (printFields fs ++ '\x7d' :: rest) = some (fs, rest)) := by
  intro fuel
  induction fuel with
  | zero =>
    refine ⟨?_, ?_, ?_⟩
    · intro v rest hf _
      cases v <;> simp [jfuel] at hf
    · intro xs rest hne hf _
      cases xs with
      | nil => exact absurd rfl hne
      | cons x xs => simp [efuel] at hf
    · intro fs rest hne hf _
      cases fs with
      | nil => exact absurd rfl hne
      | cons kv fs => obtain ⟨k, v⟩ := kv; simp [ffuel] at hf
  | succ f ih =>
    obtain ⟨ihv, ihe, ihf⟩ := ih
    refine ⟨?_, ?_, ?_⟩
    · intro v rest hf hr
      cases v with
      | null =>
        rw [show printJVal JVal.null ++ rest = 'n' :: 'u' :: 'l' :: 'l' :: rest from rfl,
          parseVal, skipWs_cons_of_not_ws _ _ (by decide)]
        simp [dropPre, toL]
      | bool b =>
        cases b with
        | true =>
          rw [show printJVal (JVal.bool true) ++ rest = 't' :: 'r' :: 'u' :: 'e' :: rest from rfl,
            parseVal, skipWs_cons_of_not_ws _ _ (by decide)]
          simp [dropPre, toL]
        | false =>
          rw [show printJVal (JVal.bool false) ++ rest
              = 'f' :: 'a' :: 'l' :: 's' :: 'e' :: rest from rfl,
            parseVal, skipWs_cons_of_not_ws _ _ (by decide)]
          simp [dropPre, toL]
      | num n =>
        have hhead : ∃ d t, intToDec n = d :: t ∧ (d = '-' ∨ d.isDigit = true) := by
          cases n with
          | ofNat m =>
            rcases hd : natToDec m with _ | ⟨d, t⟩
            · exact absurd hd (natToDec_ne_nil m)
            · exact ⟨d, t, hd,
                Or.inr (natToDec_digits m d (by rw [hd]; exact List.mem_cons_self d t))⟩
          | negSucc m => exact ⟨'-', _, rfl, Or.inl rfl⟩
        obtain ⟨d, t, hd, hcls⟩ := hhead
        have hns := numHead_not_special d hcls
        have hnw : isJsonWs d = false := headClass_not_ws d (by tauto)
        rw [show printJVal (JVal.num n) = intToDec n from rfl, parseVal,
          show intToDec n ++ rest = d :: (t ++ rest) from by rw [hd]; simp,
          skipWs_cons_of_not_ws _ _ hnw]
        dsimp only
        rw [if_neg hns.1, if_neg hns.2.1, if_neg hns.2.2.1, if_neg hns.2.2.2.1,
          if_neg hns.2.2.2.2.1, if_neg hns.2.2.2.2.2,
          show d :: (t ++ rest) = intToDec n ++ rest from by rw [hd]; simp]
        exact parseNum_intToDec n rest hr
      | str s =>
        rw [show printJVal (JVal.str s) ++ rest = '"' :: (escapeStr s ++ '"' :: rest) from by
            show ('"' :: escapeStr s ++ ['"']) ++ rest = _
            simp,
          parseVal, skipWs_cons_of_not_ws _ _ (by decide)]
        simp [parseStringBody_escape]
      | arr xs =>
        cases xs with
        | nil =>
          rw [show printJVal (JVal.arr []) ++ rest = '[' :: ']' :: rest from rfl,
            parseVal, skipWs_cons_of_not_ws _ _ (by decide)]
          simp [skipWs_cons_of_not_ws ']' rest (by decide)]
        | cons x xs =>
          have hef : efuel (x :: xs) ≤ f := by
            rw [show jfuel (JVal.arr (x :: xs)) = 1 + efuel (x :: xs) from rfl] at hf
            omega
          rw [show printJVal (JVal.arr (x :: xs)) ++ rest
              = '[' :: (printElems (x :: xs) ++ ']' :: rest) from by
            show ('[' :: printElems (x :: xs) ++ [']']) ++ rest = _
            simp,
            parseVal, skipWs_cons_of_not_ws _ _ (by decide)]
          obtain ⟨c0, t0, hc0, hcls⟩ := printJVal_head_class x
          obtain ⟨t1, ht1⟩ := printElems_cons_head x xs
          have hshape : printElems (x :: xs) ++ ']' :: rest
              = c0 :: (t0 ++ t1 ++ ']' :: rest) := by
            rw [ht1, hc0]
            simp
          dsimp only
          rw [if_neg (by decide : ¬ ('[' : Char) = '"'), if_pos (rfl : ('[' : Char) = '['),
            hshape, skipWs_cons_of_not_ws _ _ (headClass_not_ws c0 hcls),
            if_neg (by simp [(headClass_not_delim c0 hcls).1]),
            ← hshape, ihe (x :: xs) rest (by simp) hef hr]
          rfl
      | obj fs =>
        cases fs with
        | nil =>
          rw [show printJVal (JVal.obj []) ++ rest = '\x7b' :: '\x7d' :: rest from rfl,
            parseVal, skipWs_cons_of_not_ws _ _ (by decide)]
          simp [skipWs_cons_of_not_ws '\x7d' rest (by decide)]
        | cons kv fs =>
          obtain ⟨k, v0⟩ := kv
          have hff : ffuel ((k, v0) :: fs) ≤ f := by
            rw [show jfuel (JVal.obj ((k, v0) :: fs)) = 1 + ffuel ((k, v0) :: fs) from rfl] at hf
            omega
          rw [show printJVal (JVal.obj ((k, v0) :: fs)) ++ rest
              = '\x7b' :: (printFields ((k, v0) :: fs) ++ '\x7d' :: rest) from by
            show ('\x7b' :: printFields ((k, v0) :: fs) ++ ['\x7d']) ++ rest = _
            simp,
            parseVal, skipWs_cons_of_not_ws _ _ (by decide)]
          obtain ⟨t1, ht1⟩ := printFields_cons_head k v0 fs
          have hshape : printFields ((k, v0) :: fs) ++ '\x7d' :: rest
              = '"' :: (escapeStr k ++ '"' :: ':' :: ' ' :: t1 ++ '\x7d' :: rest) := by
            rw [ht1]
            simp
          dsimp only
          rw [if_neg (by decide : ¬ ('\x7b' : Char) = '"'),
            if_neg (by decide : ¬ ('\x7b' : Char) = '['),
            if_pos (rfl : ('\x7b' : Char) = '\x7b'),
            hshape, skipWs_cons_of_not_ws _ _ (by decide),
            if_neg (by simp),
            ← hshape, ihf ((k, v0) :: fs) rest (by simp) hff hr]
          rfl
    · intro xs rest hne hf hr
      cases xs with
      | nil => exact absurd rfl hne
      | cons x xs =>
        have hmax : max (jfuel x) (efuel xs) ≤ f := by
          rw [show efuel (x :: xs) = 1 + max (jfuel x) (efuel xs) from rfl] at hf
          omega
        have hjx : jfuel x ≤ f := le_trans (le_max_left _ _) hmax
        have hexs : efuel xs ≤ f := le_trans (le_max_right _ _) hmax
        cases xs with
        | nil =>
          rw [show printElems [x] = printJVal x from rfl, parseElems,
            ihv x (']' :: rest) hjx (by rfl)]
          dsimp only
          rw [skipWs_cons_of_not_ws _ _ (by decide)]
          rfl
        | cons y ys =>
          rw [show printElems (x :: y :: ys) ++ ']' :: rest
              = printJVal x ++ ',' :: ' ' :: (printElems (y :: ys) ++ ']' :: rest) from by
            show (printJVal x ++ ',' :: ' ' :: printElems (y :: ys)) ++ ']' :: rest = _
            simp,
            parseElems,
            ihv x (',' :: ' ' :: (printElems (y :: ys) ++ ']' :: rest)) hjx (by rfl)]
          dsimp only
          rw [skipWs_cons_of_not_ws _ _ (by decide)]
          show (parseElems f (' ' :: (printElems (y :: ys) ++ ']' :: rest))).map
              (fun p => (x :: p.1, p.2)) = some (x :: y :: ys, rest)
          rw [parseElems_cons_ws, ihe (y :: ys) rest (by simp) hexs hr]
          rfl
    · intro fs rest hne hf hr
      cases fs with
      | nil => exact absurd rfl hne
      | cons kv fs =>
        obtain ⟨k, v0⟩ := kv
        have hmax : max (jfuel v0) (ffuel fs) ≤ f := by
          rw [show ffuel ((k, v0) :: fs) = 1 + max (jfuel v0) (ffuel fs) from rfl] at hf
          omega
        have hjv : jfuel v0 ≤ f := le_trans (le_max_left _ _) hmax
        have hffs : ffuel fs ≤ f := le_trans (le_max_right _ _) hmax
        cases fs with
        | nil =>
          rw [show printFields [(k, v0)] ++ '\x7d' :: rest
              = '"' :: (escapeStr k ++ '"' :: ':' :: ' ' :: (printJVal v0 ++ '\x7d' :: rest)) from by
            show ('"' :: escapeStr k ++ '"' :: ':' :: ' ' :: printJVal v0) ++ '\x7d' :: rest = _
            simp,
            parseFields, skipWs_cons_of_not_ws _ _ (by decide)]
          dsimp only
          rw [parseStringBody_escape k (':' :: ' ' :: (printJVal v0 ++ '\x7d' :: rest))]
          dsimp only
          rw [skipWs_cons_of_not_ws _ _ (by decide)]
          dsimp only
          rw [parseVal_cons_ws, ihv v0 ('\x7d' :: rest) hjv (by rfl)]
          dsimp only
          rw [skipWs_cons_of_not_ws _ _ (by decide)]
          rfl
        | cons kv2 fs2 =>
          rw [show printFields ((k, v0) :: kv2 :: fs2) ++ '\x7d' :: rest
              = '"' :: (escapeStr k ++ '"' :: ':' :: ' '
                :: (printJVal v0 ++ ',' :: ' ' :: (printFields (kv2 :: fs2) ++ '\x7d' :: rest))) from by
            show (('"' :: escapeStr k ++ '"' :: ':' :: ' ' :: printJVal v0)
              ++ ',' :: ' ' :: printFields (kv2 :: fs2)) ++ '\x7d' :: rest = _
            simp,
            parseFields, skipWs_cons_of_not_ws _ _ (by decide)]
          dsimp only
          rw [parseStringBody_escape k
            (':' :: ' ' :: (printJVal v0 ++ ',' :: ' ' :: (printFields (kv2 :: fs2) ++ '\x7d' :: rest)))]
          dsimp only
          rw [skipWs_cons_of_not_ws _ _ (by decide)]
          dsimp only
          rw [parseVal_cons_ws,
            ihv v0 (',' :: ' ' :: (printFields (kv2 :: fs2) ++ '\x7d' :: rest)) hjv (by rfl)]
          dsimp only
          rw [skipWs_cons_of_not_ws _ _ (by decide)]
          show (parseFields f (' ' :: (printFields (kv2 :: fs2) ++ '\x7d' :: rest))).map
              (fun p => ((k, v0) :: p.1, p.2)) = some ((k, v0) :: kv2 :: fs2, rest)
          rw [parseFields_cons_ws, ihf (kv2 :: fs2) rest (by simp) hffs hr]
          rfl

theorem printJVal_length_pos (v : JVal) : 1 ≤ (printJVal v).length := by
  obtain ⟨c, t, hct, _⟩ := printJVal_head_class v
  rw [hct]
  simp

theorem efuel_le_aux : ∀ xs : List JVal, (∀ x ∈ xs, jfuel x ≤ 2 * (printJVal x).length) →
    efuel xs ≤ 2 * (printElems xs).length + 1 := by
  intro xs
  induction xs with
  | nil => intro _; simp [efuel]
  | cons x xs ih =>
    intro h
    have hx : jfuel x ≤ 2 * (printJVal x).length := h x (List.mem_cons_self x xs)
    cases xs with
    | nil =>
      rw [show efuel [x] = 1 + max (jfuel x) (efuel []) from rfl,
        show printElems [x] = printJVal x from rfl]
      simp only [efuel, Nat.max_zero]
      omega
    | cons y ys =>
      have hih : efuel (y :: ys) ≤ 2 * (printElems (y :: ys)).length + 1 :=
        ih (fun z hz => h z (List.mem_cons_of_mem x hz))
      rw [show efuel (x :: y :: ys) = 1 + max (jfuel x) (efuel (y :: ys)) from rfl,
        show printElems (x :: y :: ys) = printJVal x ++ ',' :: ' ' :: printElems (y :: ys) from rfl]
      simp only [List.length_append, List.length_cons]
      have hm : max (jfuel x) (efuel (y :: ys)) ≤ jfuel x + efuel (y :: ys) := by omega
      omega

theorem ffuel_le_aux : ∀ fs : List (List Char × JVal),
    (∀ kv ∈ fs, jfuel kv.2 ≤ 2 * (printJVal kv.2).length) →
    ffuel fs ≤ 2 * (printFields fs).length + 1 := by
  intro fs
  induction fs with
  | nil => intro _; simp [ffuel]
  | cons kv fs ih =>
    obtain ⟨k, v⟩ := kv
    intro h
    have hv : jfuel v ≤ 2 * (printJVal v).length := h (k, v) (List.mem_cons_self _ fs)
    cases fs with
    | nil =>
      rw [show ffuel [(k, v)] = 1 + max (jfuel v) (ffuel []) from rfl,
        show printFields [(k, v)] = '"' :: escapeStr k ++ '"' :: ':' :: ' ' :: printJVal v from rfl]
      simp only [ffuel, Nat.max_zero, List.length_cons, List.length_append]
      omega
    | cons kv2 fs2 =>
      have hih : ffuel (kv2 :: fs2) ≤ 2 * (printFields (kv2 :: fs2)).length + 1 :=
        ih (fun z hz => h z (List.mem_cons_of_mem _ hz))
      rw [show ffuel ((k, v) :: kv2 :: fs2) = 1 + max (jfuel v) (ffuel (kv2 :: fs2)) from rfl,
        show printFields ((k, v) :: kv2 :: fs2)
          = ('"' :: escapeStr k ++ '"' :: ':' :: ' ' :: printJVal v)
            ++ ',' :: ' ' :: printFields (kv2 :: fs2) from rfl]
      simp only [List.length_append, List.length_cons]
      have hm : max (jfuel v) (ffuel (kv2 :: fs2)) ≤ jfuel v + ffuel (kv2 :: fs2) := by omega
      omega

theorem mem_jfuel_lt_efuel : ∀ (xs : List JVal) (x : JVal), x ∈ xs → jfuel x < efuel xs := by
  intro xs
  induction xs with
  | nil => intro x hx; simp at hx
  | cons y ys ih =>
    intro x hx
    rcases List.mem_cons.1 hx with hx | hx
    · subst hx
      rw [show efuel (x :: ys) = 1 + max (jfuel x) (efuel ys) from rfl]
      omega
    · have := ih x hx
      rw [show efuel (y :: ys) = 1 + max (jfuel y) (efuel ys) from rfl]
      omega

theorem mem_jfuel_lt_ffuel : ∀ (fs : List (List Char × JVal)) (kv : List Char × JVal),
    kv ∈ fs → jfuel kv.2 < ffuel fs := by
  intro fs
  induction fs with
  | nil => intro kv hkv; simp at hkv
  | cons kv0 fs ih =>
    obtain ⟨k0, v0⟩ := kv0
    intro kv hkv
    rcases List.mem_cons.1 hkv with hkv | hkv
    · subst hkv
      rw [show ffuel ((k0, v0) :: fs) = 1 + max (jfuel v0) (ffuel fs) from rfl,
        show jfuel ((k0, v0) : List Char × JVal).2 = jfuel v0 from rfl]
      omega
    · have := ih kv hkv
      rw [show ffuel ((k0, v0) :: fs) = 1 + max (jfuel v0) (ffuel fs) from rfl]
      omega

theorem jfuel_le_bound : ∀ (N : Nat) (v : JVal), jfuel v ≤ N →
    jfuel v ≤ 2 * (printJVal v).length := by
  intro N
  induction N with
  | zero => intro v h; cases v <;> simp [jfuel, efuel, ffuel] at h
  | succ N ihN =>
    intro v hv
    have hlen := printJVal_length_pos v
    cases v with
    | null => simp [jfuel]; omega
    | bool b => simp [jfuel]; omega
    | num n => simp [jfuel]; omega
    | str s => simp [jfuel]; omega
    | arr xs =>
      have hef : efuel xs ≤ N := by
        rw [show jfuel (JVal.arr xs) = 1 + efuel xs from rfl] at hv
        omega
      have helem : ∀ x ∈ xs, jfuel x ≤ 2 * (printJVal x).length := by
        intro x hx
        exact ihN x (by have := mem_jfuel_lt_efuel xs x hx; omega)
      have := efuel_le_aux xs helem
      rw [show jfuel (JVal.arr xs) = 1 + efuel xs from rfl,
        show printJVal (JVal.arr xs) = '[' :: printElems xs ++ [']'] from rfl]
      simp only [List.length_cons, List.length_append]
      omega
    | obj fs =>
      have hff : ffuel fs ≤ N := by
        rw [show jfuel (JVal.obj fs) = 1 + ffuel fs from rfl] at hv
        omega
      have helem : ∀ kv ∈ fs, jfuel kv.2 ≤ 2 * (printJVal kv.2).length := by
        intro kv hkv
        exact ihN kv.2 (by have := mem_jfuel_lt_ffuel fs kv hkv; omega)
      have := ffuel_le_aux fs helem
      rw [show jfuel (JVal.obj fs) = 1 + ffuel fs from rfl,
        show printJVal (JVal.obj fs) = '\x7b' :: printFields fs ++ ['\x7d'] from rfl]
      simp only [List.length_cons, List.length_append]
      omega

/-- Round trip `json.loads (json.dumps v) = v` for the JSON values of the model. -/
theorem parseJson_print (v : JVal) : parseJson (printJVal v) = some v := by
  have hb : jfuel v ≤ 2 * (printJVal v).length + 2 := by
    have := jfuel_le_bound (jfuel v) v le_rfl
    omega
  have h := (parse_print (2 * (printJVal v).length + 2)).1 v [] hb (by rfl)
  rw [List.append_nil] at h
  rw [parseJson, h]
  rfl

/-! ### Ledger lemmas -/

theorem pyStrip_of_ends (c1 c2 : Char) (m : List Char)
    (h1 : isJsonWs c1 = false) (h2 : isJsonWs c2 = false) :
    pyStrip (c1 :: m ++ [c2]) = c1 :: m ++ [c2] := by
  simp [pyStrip, List.dropWhile_cons, h1, h2]

theorem pyStrip_print_obj (fs : List (List Char × JVal)) :
    pyStrip (printJVal (.obj fs)) = printJVal (.obj fs) := by
  rw [show printJVal (JVal.obj fs) = '\x7b' :: printFields fs ++ ['\x7d'] from rfl]
  exact pyStrip_of_ends '\x7b' '\x7d' (printFields fs) (by decide) (by decide)

theorem printJVal_obj_ne_nil (fs : List (List Char × JVal)) : printJVal (.obj fs) ≠ [] := by
  rw [show printJVal (JVal.obj fs) = '\x7b' :: printFields fs ++ ['\x7d'] from rfl]
  simp

theorem pyEqCommit_jopt (c : Option (List Char)) : pyEqCommit (some (jopt c)) c = true := by
  cases c with
  | none => rfl
  | some s => simp [pyEqCommit, jopt]

/-- Replaying the printed line of an `"ok"` record of the current commit
adds exactly the keys of its file entries to the covered set and appends
the record itself to the history. -/
theorem loadLine_print_record (commit : Option (List Char)) (acc : LoadAcc)
    (r : LedgerRecord) (fl : List JVal)
    (hcm : pyEqCommit (some r.commit) commit = true)
    (hst : r.status = .str (toL "ok"))
    (hfl : r.files = .arr fl) :
    loadLine commit acc (printJVal (recordToJVal r))
      = (coverFiles acc.covered fl).map
          (fun cov => ⟨cov, acc.records ++ [r]⟩) := by
  rw [loadLine, show recordToJVal r = JVal.obj (recFields r) from rfl,
    pyStrip_print_obj, if_neg (printJVal_obj_ne_nil _), parseJson_print]
  dsimp only
  rw [if_pos (show pyEqCommit (objGet (recFields r) (toL "commit")) commit = true from hcm)]
  have hs : (objGet (recFields r) (toL "status")).getD (.str (toL "error"))
      = JVal.str (toL "ok") := hst
  nth_rewrite 1 [hs]
  dsimp only
  rw [if_pos rfl]
  have hf2 : (objGet (recFields r) (toL "files")).getD (.arr []) = JVal.arr fl := hfl
  nth_rewrite 1 [hf2]
  rw [show entriesOf (JVal.arr fl) = Except.ok fl from rfl]
  have hcv : ∀ rcs, ({ acc with records := rcs } : LoadAcc).covered = acc.covered :=
    fun _ => rfl
  dsimp only [Bind.bind, Except.bind]
  rw [hcv]
  rcases hcf : coverFiles acc.covered fl with e | cov
  · rfl
  · rfl

theorem addKey_subset (cov : Finset (List Char)) (k : Option (List Char)) :
    cov ⊆ addKey cov k := by
  cases k with
  | none => exact Finset.Subset.refl _
  | some kk =>
    rw [addKey]
    split
    · exact Finset.Subset.refl _
    · exact Finset.subset_insert _ _

theorem coverFiles_subset : ∀ (es : List JVal) (cov cov' : Finset (List Char)),
    coverFiles cov es = .ok cov' → cov ⊆ cov' := by
  intro es
  induction es with
  | nil =>
    intro cov cov' h
    simp only [coverFiles, Except.ok.injEq] at h
    rw [h]
  | cons e es ih =>
    intro cov cov' h
    rw [coverFiles] at h
    rcases htk : targetKeyFromEntry e with err | k
    · rw [htk] at h
      simp [Bind.bind, Except.bind] at h
    · rw [htk] at h
      simp only [Bind.bind, Except.bind] at h
      exact Finset.Subset.trans (addKey_subset cov k) (ih _ _ h)

/-- C7: appending an `"error"`-status record extends the persisted ledger
file and the in-memory record history but leaves the covered set
unchanged; and no `append_record` call, whatever its status, ever removes
a key from the covered set. -/
theorem ledger_C7_error_append (st : CoverageLedger) (files : List JVal)
    (m a : List Char) (mc : Int) (ph : List Char) (pt ct : Int)
    (em : Option (List Char)) (ts : List Char) :
    (append_record st files m a mc ph pt ct (toL "error") em ts
      = .ok { st with
          fileLines := st.fileLines ++ [printJVal (recordToJVal
            (mkRecord st.commit_sha files m a mc ph pt ct (toL "error") em ts))]
          records := st.records
            ++ [mkRecord st.commit_sha files m a mc ph pt ct (toL "error") em ts] }) ∧
    (∀ (stat : List Char) (st' : CoverageLedger),
      append_record st files m a mc ph pt ct stat em ts = .ok st' →
        st.covered ⊆ st'.covered) := by
  constructor
  · rw [append_record, if_neg (by decide)]
  · intro stat st' h
    rw [append_record] at h
    have hcv : ∀ fl rc, ({ st with fileLines := fl, records := rc } : CoverageLedger).covered
        = st.covered := fun _ _ => rfl
    by_cases hok : stat = toL "ok"
    · rw [if_pos hok] at h
      simp only [Bind.bind, Except.bind] at h
      rw [hcv] at h
      rcases hcf : coverFiles st.covered files with e | cov
      · rw [hcf] at h
        simp at h
      · rw [hcf] at h
        simp only [Except.ok.injEq] at h
        rw [← h]
        exact coverFiles_subset files st.covered cov hcf
    · rw [if_neg hok] at h
      simp only [Except.ok.injEq] at h
      rw [← h]

/-- Witness for C7: an `"ok"` append on the empty store extends the
covered set, never shrinking it. -/
theorem ledger_C7_error_append_witness :
    (append_record emptyLedger [entryA] (toL "m") (toL "u") 4000 (toL "ph") 10 20
        (toL "ok") none (toL "T") = .ok appendedLedger) ∧
    emptyLedger.covered ⊆ appendedLedger.covered :=
  ⟨by rfl,
    (ledger_C7_error_append emptyLedger [entryA] (toL "m") (toL "u") 4000 (toL "ph")
      10 20 none (toL "T")).2 (toL "ok") appendedLedger (by rfl)⟩

/-- C2: after appending an `"ok"` record for a set of file entries to a
store whose covered set agrees with a replay of its ledger file (same
commit, same directory), replaying the new ledger file in a freshly
constructed store reproduces exactly the live in-memory covered set. -/
theorem ledger_C2_replay (st st0 st2 : CoverageLedger) (files : List JVal)
    (m a : List Char) (mc : Int) (ph : List Char) (pt ct : Int)
    (em : Option (List Char)) (ts : List Char)
    (hload : loadLedger st.commit_sha st.fileLines = .ok st0)
    (hcov : st0.covered = st.covered)
    (happ : append_record st files m a mc ph pt ct (toL "ok") em ts = .ok st2) :
    ∃ st1, loadLedger st.commit_sha st2.fileLines = .ok st1 ∧ st1.covered = st2.covered := by
  rw [append_record, if_pos rfl] at happ
  have hcv : ∀ fl rc, ({ st with fileLines := fl, records := rc } : CoverageLedger).covered
      = st.covered := fun _ _ => rfl
  simp only [Bind.bind, Except.bind] at happ
  rw [hcv] at happ
  rcases hcf : coverFiles st.covered files with e | cov
  · rw [hcf] at happ
    simp at happ
  · rw [hcf] at happ
    simp only [Except.ok.injEq] at happ
    rw [loadLedger] at hload
    simp only [Bind.bind, Except.bind] at hload
    rcases hacc : List.foldlM (loadLine st.commit_sha) ⟨∅, []⟩ st.fileLines with e0 | acc
    · rw [hacc] at hload
      simp at hload
    · rw [hacc] at hload
      simp only [Except.ok.injEq] at hload
      have hacccov : acc.covered = st.covered := by
        rw [← hcov, ← hload]
      have hfl2 : st2.fileLines = st.fileLines ++ [printJVal (recordToJVal
          (mkRecord st.commit_sha files m a mc ph pt ct (toL "ok") em ts))] := by
        rw [← happ]
      have hcov2 : st2.covered = cov := by
        rw [← happ]
      refine ⟨⟨st.commit_sha, ∅, cov,
        acc.records ++ [mkRecord st.commit_sha files m a mc ph pt ct (toL "ok") em ts],
        st.fileLines ++ [printJVal (recordToJVal
          (mkRecord st.commit_sha files m a mc ph pt ct (toL "ok") em ts))]⟩, ?_, ?_⟩
      · rw [hfl2, loadLedger]
        simp only [Bind.bind, Except.bind]
        rw [List.foldlM_append, hacc]
        simp only [Bind.bind, Except.bind]
        rw [List.foldlM_cons, loadLine_print_record st.commit_sha acc
          (mkRecord st.commit_sha files m a mc ph pt ct (toL "ok") em ts) files
          (pyEqCommit_jopt st.commit_sha) rfl rfl, hacccov, hcf]
        rfl
      · rw [hcov2]

/-- Witness for C2: the empty store, whose empty ledger file replays to
itself, after appending an `"ok"` record for `entryA`. -/
theorem ledger_C2_replay_witness :
    (loadLedger emptyLedger.commit_sha emptyLedger.fileLines = .ok emptyLedger) ∧
    (emptyLedger.covered = emptyLedger.covered) ∧
    (append_record emptyLedger [entryA] (toL "m") (toL "u") 4000 (toL "ph") 10 20
        (toL "ok") none (toL "T") = .ok appendedLedger) ∧
    (∃ st1, loadLedger emptyLedger.commit_sha appendedLedger.fileLines = .ok st1 ∧
      st1.covered = appendedLedger.covered) :=
  ⟨rfl, rfl, rfl,
    ledger_C2_replay emptyLedger emptyLedger appendedLedger [entryA] (toL "m") (toL "u")
      4000 (toL "ph") 10 20 none (toL "T") rfl rfl rfl⟩

/-- C3 (refuting theorem for the code bug): a ledger file whose single
line is `5` — valid JSON that is not an object — makes the construction
of the store raise `AttributeError` (`data.get` on an `int`) instead of
being discarded: a malformed ledger line *can* be fatal. -/
theorem ledger_C3_nonobject_line_fatal :
    loadLedger none [toL "5"] = .error .attributeError := by rfl

/-- C6: in every report built by `build_report`, `coverage_ratio` equals
`covered_segments / total_segments` when `total_segments` is nonzero, and
equals exactly `1` when `total_segments` is zero. -/
theorem report_C6_coverage_ratio (st : CoverageLedger) :
    ((build_report st).total_segments ≠ 0 →
      (build_report st).coverage_ratio
        = ((build_report st).covered_segments : ℚ) / ((build_report st).total_segments : ℚ)) ∧
    ((build_report st).total_segments = 0 → (build_report st).coverage_ratio = 1) := by
  constructor
  · intro h
    simp only [build_report] at h ⊢
    rw [if_pos h]
  · intro h
    simp only [build_report] at h ⊢
    rw [if_neg (fun hc => hc h)]

/-- Witness for C6: the empty registry gives ratio 1; a one-target
registry with nothing covered gives ratio `0/1`. -/
theorem report_C6_coverage_ratio_witness :
    ((build_report emptyLedger).total_segments = 0 ∧
      (build_report emptyLedger).coverage_ratio = 1) ∧
    ((build_report oneKeyLedger).total_segments ≠ 0 ∧
      (build_report oneKeyLedger).coverage_ratio
        = ((build_report oneKeyLedger).covered_segments : ℚ)
          / ((build_report oneKeyLedger).total_segments : ℚ)) :=
  ⟨⟨rfl, (report_C6_coverage_ratio emptyLedger).2 rfl⟩,
    ⟨by decide, (report_C6_coverage_ratio oneKeyLedger).1 (by decide)⟩⟩

/-- C10: `covered_segments` counts exactly the keys both registered and
covered, so `total_segments = covered_segments + missed_segments` holds
for every state of the store. -/
theorem report_C10_partition (st : CoverageLedger) :
    (build_report st).covered_segments = (st.covered ∩ st.targets).card ∧
    (build_report st).total_segments
      = (build_report st).covered_segments + (build_report st).missed_segments := by
  constructor
  · rfl
  · show st.targets.card = (st.covered ∩ st.targets).card + (st.targets \ st.covered).card
    rw [Finset.inter_comm]
    exact (Finset.card_inter_add_card_sdiff st.targets st.covered).symm
